import Mathlib

/-!
# Verification of the graph_maker entity-resolution and graph-persistence pipeline

This file gives a shallow embedding, in Lean 4, of the core of the
`graph_maker` repository:

* the string normalizer and fuzzy matcher of
  `src/unnamed/part_002` (`EntityResolutionService`: `_normalizeString`,
  `_calculateStringSimilarity`, `_findSubstringMatches`, `_findBestMatch`,
  `addEntity`, `findEntityByName`),
* the relationship pre-filter of
  `src/graph-maker-web/src/services/neo4jService.js`
  (`checkEntityIdsExist`, `saveRelationships`),
* the error accounting of `saveEntities` in the same file, and the
  write/verify operation traces of both entity writers
  (`src/graph-maker-web/src/services/neo4jService.js` and
  `src/unnamed/part_004`),
* the relationship rewriter of
  `src/graph-maker-web/src/services/graphProcessorService.js` (`processPDF`).

JavaScript strings are modelled as `List Char` (named `Str` below); the ASCII
fragment of `toLowerCase`, `\w` and `\s` is modelled, which is the fragment
the repository's data exercises.  JavaScript numbers are modelled as `ℚ`:
every constant and arithmetic operation appearing in the embedded code
(`0.65`, `0.85`, `1 - d/max`, ...) is exact at these magnitudes.
JavaScript `Map`s are modelled as insertion-ordered association lists with
`Map.get`/`Map.set` semantics.  Code paths that would throw on `undefined`
are modelled with `Option`.
-/

/-- Strings of the embedded JavaScript, as lists of characters. -/
abbrev Str := List Char

/-- Convert a Lean string literal to the model representation. -/
def str (s : String) : Str := s.toList

/-- The ASCII case mapping used by JavaScript `String.prototype.toLowerCase`:
each upper-case letter is paired with its lower-case form. -/
def lowerPairs : List (Char × Char) :=
  [('A', 'a'), ('B', 'b'), ('C', 'c'), ('D', 'd'), ('E', 'e'), ('F', 'f'),
   ('G', 'g'), ('H', 'h'), ('I', 'i'), ('J', 'j'), ('K', 'k'), ('L', 'l'),
   ('M', 'm'), ('N', 'n'), ('O', 'o'), ('P', 'p'), ('Q', 'q'), ('R', 'r'),
   ('S', 's'), ('T', 't'), ('U', 'u'), ('V', 'v'), ('W', 'w'), ('X', 'x'),
   ('Y', 'y'), ('Z', 'z')]

/-- ASCII fragment of JavaScript `String.prototype.toLowerCase`. -/
def jsToLowerChar (c : Char) : Char :=
  ((lowerPairs.find? (fun p => decide (p.1 = c))).map Prod.snd).getD c

/-- `str.toLowerCase()`. -/
def jsToLower (s : Str) : Str := s.map jsToLowerChar

/-- JavaScript regex class `\w` (`[A-Za-z0-9_]`). -/
def isWordChar (c : Char) : Bool :=
  ('a' ≤ c ∧ c ≤ 'z') ∨ ('A' ≤ c ∧ c ≤ 'Z') ∨ ('0' ≤ c ∧ c ≤ '9') ∨ c = '_'

/-- JavaScript regex class `\s`, restricted to the ASCII whitespace the
repository's data contains. -/
def isSpaceChar (c : Char) : Bool :=
  c = ' ' ∨ c = '\t' ∨ c = '\n' ∨ c = '\r'

/-- `str.replace(/[^\w\s]/g, ' ')`: every character that is neither a word
character nor whitespace becomes a space. -/
def punctToSpace (s : Str) : Str :=
  s.map (fun c => if isWordChar c || isSpaceChar c then c else ' ')

/-- Worker for `collapse`; the flag records whether the previous character
was whitespace (in which case further whitespace is absorbed). -/
def collapseAux : Bool → Str → Str
  | _, [] => []
  | inSpace, c :: rest =>
    if isSpaceChar c then
      if inSpace then collapseAux true rest
      else ' ' :: collapseAux true rest
    else c :: collapseAux false rest

/-- `str.replace(/\s+/g, ' ')`: each maximal whitespace run becomes one
space. -/
def collapse (s : Str) : Str := collapseAux false s

/-- Drop leading whitespace. -/
def trimLeft (s : Str) : Str := s.dropWhile (fun c => isSpaceChar c)

/-- Drop trailing whitespace. -/
def trimRight : Str → Str
  | [] => []
  | c :: rest =>
    match trimRight rest with
    | [] => if isSpaceChar c then [] else [c]
    | l => c :: l

/-- JavaScript `str.trim()`. -/
def jsTrim (s : Str) : Str := trimRight (trimLeft s)

/-- Decidable prefix test on model strings. -/
def strIsPrefixOf : Str → Str → Bool
  | [], _ => true
  | _ :: _, [] => false
  | a :: as, b :: bs => decide (a = b) && strIsPrefixOf as bs

/-- Decidable suffix test on model strings. -/
def strEndsWith (s suf : Str) : Bool := strIsPrefixOf suf.reverse s.reverse

/-- JavaScript `s.includes(sub)`: `sub` occurs contiguously in `s`. -/
def strIncludes (s sub : Str) : Bool :=
  (List.tails s).any (fun t => strIsPrefixOf sub t)

/-- The article prefixes stripped by `_normalizeString`
(`src/unnamed/part_002`, lines 239–245). -/
def articlePrefixes : List Str := [str "the ", str "a ", str "an "]

/-- The corporate-form suffixes stripped by `_normalizeString`
(`src/unnamed/part_002`, lines 248–257). -/
def companySuffixes : List Str :=
  [str " inc", str " llc", str " corporation", str " corp", str " company",
   str " co", str " limited", str " ltd", str " group", str " holdings",
   str " gmbh", str " ag"]

/-- Strip the first matching prefix from the list (the JS loop `break`s
after the first hit). -/
def stripFirstPrefix : List Str → Str → Str
  | [], s => s
  | p :: rest, s =>
    if strIsPrefixOf p s then s.drop p.length else stripFirstPrefix rest s

/-- Strip the first matching suffix from the list (the JS loop `break`s
after the first hit). -/
def stripFirstSuffix : List Str → Str → Str
  | [], s => s
  | suf :: rest, s =>
    if strEndsWith s suf then s.take (s.length - suf.length)
    else stripFirstSuffix rest s

/-- `_normalizeString` of `src/unnamed/part_002` (lines 232–265):
lowercase, strip one leading article, strip one trailing corporate suffix,
replace special characters by spaces, collapse whitespace, trim.
`_normalizeString` of a JS falsy argument returns `''`, which coincides
with the value of this function at `[]`. -/
def normalizeString (s : Str) : Str :=
  jsTrim (collapse (punctToSpace
    (stripFirstSuffix companySuffixes
      (stripFirstPrefix articlePrefixes (jsToLower s)))))

example : normalizeString (str "The  Acme Corp.") = str "acme corp" := by decide
example : normalizeString (str "The  Acme Corp") = str "acme" := by decide
example : normalizeString (str "x inc inc") = str "x inc" := by decide
example : normalizeString (str "x inc") = str "x" := by decide
example : normalizeString (str "???") = str "" := by decide

/-! ## Idempotence analysis of the normalizer (claim C2) -/

theorem jsToLowerChar_idem (c : Char) :
    jsToLowerChar (jsToLowerChar c) = jsToLowerChar c := by
  unfold jsToLowerChar
  cases h : lowerPairs.find? (fun p => decide (p.1 = c)) with
  | none => simp only [h, Option.map_none', Option.getD_none, h]
  | some p =>
    have hp : p ∈ lowerPairs := List.mem_of_find?_eq_some h
    have hall : ∀ q ∈ lowerPairs,
        lowerPairs.find? (fun r => decide (r.1 = q.2)) = none := by decide
    simp only [h, Option.map_some', Option.getD_some, hall p hp, Option.map_none',
      Option.getD_none]

theorem mem_jsToLower {c : Char} {s : Str} (h : c ∈ jsToLower s) :
    jsToLowerChar c = c := by
  rcases List.mem_map.1 h with ⟨d, _, rfl⟩
  exact jsToLowerChar_idem d

theorem jsToLower_fix {s : Str} (h : ∀ c ∈ s, jsToLowerChar c = c) :
    jsToLower s = s := by
  unfold jsToLower
  calc s.map jsToLowerChar = s.map id := List.map_congr_left h
  _ = s := List.map_id s

theorem mem_punctToSpace {c : Char} {s : Str} (h : c ∈ punctToSpace s) :
    c = ' ' ∨ c ∈ s := by
  rcases List.mem_map.1 h with ⟨d, hd, he⟩
  by_cases hw : (isWordChar d || isSpaceChar d) = true
  · have hc : c = d := by rw [← he]; simp [hw]
    exact Or.inr (hc ▸ hd)
  · have hc : c = ' ' := by rw [← he]; simp [hw]
    exact Or.inl hc

theorem wordOrSpace_punctToSpace {c : Char} {s : Str} (h : c ∈ punctToSpace s) :
    (isWordChar c || isSpaceChar c) = true := by
  rcases List.mem_map.1 h with ⟨d, _, he⟩
  by_cases hw : (isWordChar d || isSpaceChar d) = true
  · have hc : c = d := by rw [← he]; simp [hw]
    rw [hc]; exact hw
  · have hc : c = ' ' := by rw [← he]; simp [hw]
    rw [hc]; decide

theorem punctToSpace_fix {s : Str}
    (h : ∀ c ∈ s, (isWordChar c || isSpaceChar c) = true) :
    punctToSpace s = s := by
  unfold punctToSpace
  calc s.map _ = s.map id := List.map_congr_left (fun c hc => by simp [h c hc])
  _ = s := List.map_id s

theorem mem_collapseAux {c : Char} :
    ∀ {b : Bool} {s : Str}, c ∈ collapseAux b s → c = ' ' ∨ c ∈ s := by
  intro b s
  induction s generalizing b with
  | nil => intro h; simp [collapseAux] at h
  | cons d rest ih =>
    intro h
    simp only [collapseAux] at h
    by_cases hd : isSpaceChar d = true
    · rw [if_pos hd] at h
      cases b with
      | true =>
        simp only [if_pos rfl] at h
        rcases ih h with h' | h'
        · exact Or.inl h'
        · exact Or.inr (List.mem_cons_of_mem _ h')
      | false =>
        rw [if_neg Bool.false_ne_true] at h
        rcases List.mem_cons.1 h with h' | h'
        · exact Or.inl h'
        · rcases ih h' with h'' | h''
          · exact Or.inl h''
          · exact Or.inr (List.mem_cons_of_mem _ h'')
    · rw [if_neg hd] at h
      rcases List.mem_cons.1 h with h' | h'
      · exact Or.inr (h' ▸ List.mem_cons_self d rest)
      · rcases ih h' with h'' | h''
        · exact Or.inl h''
        · exact Or.inr (List.mem_cons_of_mem _ h'')

theorem trimRight_cons (d : Char) (rest : Str) :
    trimRight (d :: rest) = match trimRight rest with
      | [] => if isSpaceChar d then [] else [d]
      | l => d :: l := rfl

theorem mem_trimRight {c : Char} :
    ∀ {s : Str}, c ∈ trimRight s → c ∈ s := by
  intro s
  induction s with
  | nil => intro h; exact absurd h (List.not_mem_nil c)
  | cons d rest ih =>
    intro h
    rw [trimRight_cons] at h
    cases htr : trimRight rest with
    | nil =>
      rw [htr] at h
      by_cases hd : isSpaceChar d = true
      · rw [if_pos hd] at h
        exact absurd h (List.not_mem_nil c)
      · rw [if_neg hd] at h
        have hc := List.mem_singleton.1 h
        exact hc ▸ List.mem_cons_self d rest
    | cons e l =>
      rw [htr] at h
      rcases List.mem_cons.1 h with h' | h'
      · exact h' ▸ List.mem_cons_self d rest
      · exact List.mem_cons_of_mem _ (ih (htr ▸ h'))

theorem mem_trimLeft {c : Char} {s : Str} (h : c ∈ trimLeft s) : c ∈ s :=
  (List.dropWhile_sublist _).mem h

theorem mem_jsTrim {c : Char} {s : Str} (h : c ∈ jsTrim s) : c ∈ s :=
  mem_trimLeft (mem_trimRight h)

theorem mem_stripArticle {c : Char} :
    ∀ {ps : List Str} {s : Str}, c ∈ stripFirstPrefix ps s → c ∈ s := by
  intro ps
  induction ps with
  | nil => intro s h; exact h
  | cons p rest ih =>
    intro s h
    simp only [stripFirstPrefix] at h
    by_cases hp : strIsPrefixOf p s = true
    · rw [if_pos hp] at h
      exact (List.drop_sublist _ _).mem h
    · rw [if_neg hp] at h
      exact ih h

theorem mem_stripSuffixes {c : Char} :
    ∀ {ss : List Str} {s : Str}, c ∈ stripFirstSuffix ss s → c ∈ s := by
  intro ss
  induction ss with
  | nil => intro s h; exact h
  | cons p rest ih =>
    intro s h
    simp only [stripFirstSuffix] at h
    by_cases hp : strEndsWith s p = true
    · rw [if_pos hp] at h
      exact (List.take_sublist _ _).mem h
    · rw [if_neg hp] at h
      exact ih h

/-- A character that is whitespace in the JS sense must be a plain space. -/
def spaceOk (c : Char) : Bool := !isSpaceChar c || decide (c = ' ')

/-- A space is never followed by further whitespace. -/
def pairOk (c d : Char) : Bool := !(decide (c = ' ') && isSpaceChar d)

/-- A string is tidy when its only whitespace characters are single plain
spaces: exactly the shape `collapse` produces. -/
def tidy : Str → Bool
  | [] => true
  | [c] => spaceOk c
  | c :: d :: rest => spaceOk c && pairOk c d && tidy (d :: rest)

/-- First character is not whitespace (vacuously true for the empty
string). -/
def headNonSpace : Str → Prop
  | [] => True
  | c :: _ => isSpaceChar c = false

theorem tidy_tail {c : Char} {rest : Str} (h : tidy (c :: rest) = true) :
    tidy rest = true := by
  cases rest with
  | nil => rfl
  | cons d l =>
    have h' := h
    simp only [tidy, Bool.and_eq_true] at h'
    exact h'.2

theorem tidy_head {c : Char} {rest : Str} (h : tidy (c :: rest) = true) :
    spaceOk c = true := by
  cases rest with
  | nil => exact h
  | cons d l =>
    have h' := h
    simp only [tidy, Bool.and_eq_true] at h'
    exact h'.1.1

theorem tidy_pair {c d : Char} {rest : Str} (h : tidy (c :: d :: rest) = true) :
    pairOk c d = true := by
  have h' := h
  simp only [tidy, Bool.and_eq_true] at h'
  exact h'.1.2

theorem not_space_ne_space {c : Char} (h : isSpaceChar c = false) :
    decide (c = ' ') = false := by
  by_cases hc : c = ' '
  · subst hc; exact absurd h (by decide)
  · simp [hc]

theorem space_of_spaceOk {c : Char} (h1 : spaceOk c = true)
    (h2 : isSpaceChar c = true) : c = ' ' := by
  simp only [spaceOk, h2, Bool.not_true, Bool.false_or, decide_eq_true_eq] at h1
  exact h1

theorem collapseAux_tidy :
    ∀ s : Str, tidy (collapseAux false s) = true ∧
      tidy (collapseAux true s) = true ∧ headNonSpace (collapseAux true s) := by
  intro s
  induction s with
  | nil => exact ⟨rfl, rfl, trivial⟩
  | cons d rest ih =>
    rcases ih with ⟨ih1, ih2, ih3⟩
    by_cases hd : isSpaceChar d = true
    · have e1 : collapseAux false (d :: rest) = ' ' :: collapseAux true rest := by
        simp [collapseAux, hd]
      have e2 : collapseAux true (d :: rest) = collapseAux true rest := by
        simp [collapseAux, hd]
      refine ⟨?_, e2 ▸ ih2, e2 ▸ ih3⟩
      rw [e1]
      cases hX : collapseAux true rest with
      | nil => decide
      | cons e l =>
        rw [hX] at ih2 ih3
        have he : isSpaceChar e = false := ih3
        simp only [tidy, Bool.and_eq_true]
        refine ⟨⟨by decide, ?_⟩, ih2⟩
        simp [pairOk, he]
    · have hd' : isSpaceChar d = false := by simpa using hd
      have e1 : collapseAux false (d :: rest) = d :: collapseAux false rest := by
        simp [collapseAux, hd']
      have e2 : collapseAux true (d :: rest) = d :: collapseAux false rest := by
        simp [collapseAux, hd']
      have htd : tidy (d :: collapseAux false rest) = true := by
        cases hY : collapseAux false rest with
        | nil => simp [tidy, spaceOk, hd']
        | cons e l =>
          rw [hY] at ih1
          simp only [tidy, Bool.and_eq_true]
          exact ⟨⟨by simp [spaceOk, hd'], by simp [pairOk, not_space_ne_space hd']⟩, ih1⟩
      exact ⟨e1 ▸ htd, e2 ▸ htd, by rw [e2]; exact hd'⟩

theorem collapseAux_fix :
    ∀ s : Str, tidy s = true →
      collapseAux false s = s ∧ (headNonSpace s → collapseAux true s = s) := by
  intro s
  induction s with
  | nil => exact fun _ => ⟨rfl, fun _ => rfl⟩
  | cons d rest ih =>
    intro ht
    have htail := tidy_tail ht
    rcases ih htail with ⟨ih1, ih2⟩
    by_cases hd : isSpaceChar d = true
    · have hds : d = ' ' := space_of_spaceOk (tidy_head ht) hd
      have hrest : collapseAux true rest = rest := by
        cases rest with
        | nil => rfl
        | cons e l =>
          have hp := tidy_pair ht
          rw [hds] at hp
          have hp' : isSpaceChar e = false := by
            revert hp
            simp [pairOk]
          exact ih2 hp'
      constructor
      · subst hds
        simp [collapseAux, (by decide : isSpaceChar ' ' = true), hrest]
      · intro hh
        exact absurd hd (by simpa [headNonSpace] using hh)
    · have hd' : isSpaceChar d = false := by simpa using hd
      constructor
      · simp [collapseAux, hd', ih1]
      · intro _
        simp [collapseAux, hd', ih1]

theorem tidy_trimLeft : ∀ {s : Str}, tidy s = true → tidy (trimLeft s) = true := by
  intro s
  induction s with
  | nil => intro h; exact h
  | cons d rest ih =>
    intro h
    by_cases hd : isSpaceChar d = true
    · rw [trimLeft, List.dropWhile_cons, if_pos hd]
      exact ih (tidy_tail h)
    · rw [trimLeft, List.dropWhile_cons, if_neg hd]
      exact h

theorem trimRight_head :
    ∀ {s : Str} {d : Char} {l : Str}, trimRight s = d :: l → ∃ t, s = d :: t := by
  intro s d l h
  cases s with
  | nil => exact absurd h (by simp [trimRight])
  | cons c rest =>
    rw [trimRight_cons] at h
    cases htr : trimRight rest with
    | nil =>
      rw [htr] at h
      by_cases hc : isSpaceChar c = true
      · rw [if_pos hc] at h
        exact absurd h (by simp)
      · rw [if_neg hc] at h
        injection h with h1 h2
        exact ⟨rest, by rw [h1]⟩
    | cons e l' =>
      rw [htr] at h
      injection h with h1 h2
      exact ⟨rest, by rw [h1]⟩

theorem tidy_trimRight : ∀ {s : Str}, tidy s = true → tidy (trimRight s) = true := by
  intro s
  induction s with
  | nil => intro h; exact h
  | cons d rest ih =>
    intro h
    rw [trimRight_cons]
    cases htr : trimRight rest with
    | nil =>
      by_cases hd : isSpaceChar d = true
      · rw [if_pos hd]; rfl
      · rw [if_neg hd]
        exact tidy_head h
    | cons e l =>
      rcases trimRight_head htr with ⟨t, ht⟩
      subst ht
      have hpair : pairOk d e = true := tidy_pair h
      have htide : tidy (e :: l) = true := htr ▸ ih (tidy_tail h)
      simp only [tidy, Bool.and_eq_true]
      exact ⟨⟨tidy_head h, hpair⟩, htide⟩

theorem headNonSpace_trimLeft : ∀ s : Str, headNonSpace (trimLeft s) := by
  intro s
  induction s with
  | nil => trivial
  | cons d rest ih =>
    by_cases hd : isSpaceChar d = true
    · rw [trimLeft, List.dropWhile_cons, if_pos hd]
      exact ih
    · rw [trimLeft, List.dropWhile_cons, if_neg hd]
      simpa [headNonSpace] using hd

theorem headNonSpace_trimRight {s : Str} (h : headNonSpace s) :
    headNonSpace (trimRight s) := by
  cases htr : trimRight s with
  | nil => trivial
  | cons d l =>
    rcases trimRight_head htr with ⟨t, ht⟩
    subst ht
    exact h

theorem trimLeft_fix {s : Str} (h : headNonSpace s) : trimLeft s = s := by
  cases s with
  | nil => rfl
  | cons d rest =>
    rw [trimLeft, List.dropWhile_cons, if_neg (by simpa [headNonSpace] using h)]

theorem trimRight_idem : ∀ s : Str, trimRight (trimRight s) = trimRight s := by
  intro s
  induction s with
  | nil => rfl
  | cons d rest ih =>
    cases htr : trimRight rest with
    | nil =>
      have hE : trimRight (d :: rest) = if isSpaceChar d then [] else [d] := by
        rw [trimRight_cons, htr]
      by_cases hd : isSpaceChar d = true
      · rw [hE, if_pos hd]; rfl
      · rw [hE, if_neg hd]
        simp [trimRight_cons, trimRight, hd]
    | cons e l =>
      have hE : trimRight (d :: rest) = d :: e :: l := by
        rw [trimRight_cons, htr]
      have h2 : trimRight (e :: l) = e :: l := by
        rw [← htr, ih]
      rw [hE, trimRight_cons, h2]

theorem jsTrim_idem (s : Str) : jsTrim (jsTrim s) = jsTrim s := by
  have h1 : headNonSpace (jsTrim s) :=
    headNonSpace_trimRight (headNonSpace_trimLeft s)
  rw [jsTrim, trimLeft_fix h1, jsTrim, trimRight_idem]

theorem normalize_lower_fix (s : Str) :
    jsToLower (normalizeString s) = normalizeString s := by
  apply jsToLower_fix
  intro c hc
  rcases mem_collapseAux (mem_jsTrim hc) with h | h
  · rw [h]; decide
  · rcases mem_punctToSpace h with h' | h'
    · rw [h']; decide
    · exact mem_jsToLower (mem_stripArticle (mem_stripSuffixes h'))

theorem normalize_punct_fix (s : Str) :
    punctToSpace (normalizeString s) = normalizeString s := by
  apply punctToSpace_fix
  intro c hc
  rcases mem_collapseAux (mem_jsTrim hc) with h | h
  · rw [h]; decide
  · exact wordOrSpace_punctToSpace h

theorem normalize_tidy (s : Str) : tidy (normalizeString s) = true :=
  tidy_trimRight (tidy_trimLeft (collapseAux_tidy _).1)

theorem normalize_collapse_fix (s : Str) :
    collapse (normalizeString s) = normalizeString s :=
  (collapseAux_fix _ (normalize_tidy s)).1

theorem normalize_trim_fix (s : Str) :
    jsTrim (normalizeString s) = normalizeString s := jsTrim_idem _

/-- Claim C2, counterexample: the name normalizer of `_normalizeString`
(`src/unnamed/part_002`) is not idempotent.  On the input `"Acme Corp."`
one pass yields `"acme corp"` (the trailing `" corp"` is protected by the
period when the suffix check runs, and the period is only removed
afterwards), and a second pass strips `" corp"`, yielding `"acme"`. -/
theorem C2_counterexample :
    normalizeString (normalizeString (str "Acme Corp.")) ≠
      normalizeString (str "Acme Corp.") := by decide

/-- Claim C2, amended: `normalize(normalize(s)) = normalize(s)` holds for
every string `s` whose normalized form is left unchanged by the
leading-article strip and by the corporate-suffix strip (equivalently: the
normalized form does not begin with `"the "`, `"a "` or `"an "` and does
not end with one of the corporate suffixes).  In general a second pass can
strip one further article or suffix, so unconditional idempotence fails. -/
theorem C2_amended (s : Str)
    (h1 : stripFirstPrefix articlePrefixes (normalizeString s) = normalizeString s)
    (h2 : stripFirstSuffix companySuffixes (normalizeString s) = normalizeString s) :
    normalizeString (normalizeString s) = normalizeString s := by
  show jsTrim (collapse (punctToSpace (stripFirstSuffix companySuffixes
    (stripFirstPrefix articlePrefixes (jsToLower (normalizeString s)))))) =
      normalizeString s
  rw [normalize_lower_fix, h1, h2, normalize_punct_fix, normalize_collapse_fix,
    normalize_trim_fix]

/-- Witness for C2_amended: the hypotheses hold at the concrete input
`"Blue River Energy"` and the amended idempotence follows there. -/
theorem C2_amended_witness :
    normalizeString (normalizeString (str "Blue River Energy")) =
      normalizeString (str "Blue River Energy") :=
  C2_amended (str "Blue River Energy") (by decide) (by decide)

/-! ## Data model of the entity resolution service (`src/unnamed/part_002`) -/

/-- A canonical entity as stored in `canonicalEntities`.  `confidence` is
`Option` because candidate objects may lack the field (JS `undefined`);
stored entities always carry `some` value. -/
structure Entity where
  id : Str
  name : Str
  typ : Str
  description : Str
  aliases : List Str
  confidence : Option ℚ
  sources : List Str
  props : List (Str × Str)
deriving DecidableEq

/-- A candidate entity as supplied by the extraction collaborator; absent
optional fields are modelled by `[]`/`none` exactly as the JS `||`
defaulting treats them. -/
structure Candidate where
  name : Str
  typ : Str
  description : Str
  aliases : List Str
  confidence : Option ℚ
  sources : List Str
  props : List (Str × Str)
deriving DecidableEq

/-- JavaScript `v || d` for an optional number: `undefined` and `0` are
falsy and give the default. -/
def jsOrQ (v : Option ℚ) (d : ℚ) : ℚ :=
  match v with
  | none => d
  | some x => if x = 0 then d else x

/-- JavaScript `new Set([...xs])` materialized back to an array: keeps the
first occurrence of each element, in order. -/
def dedupKeepFirst (seen : List Str) : List Str → List Str
  | [] => []
  | a :: rest =>
    if a ∈ seen then dedupKeepFirst seen rest
    else a :: dedupKeepFirst (a :: seen) rest

theorem mem_dedupKeepFirst {x : Str} :
    ∀ {l seen : List Str}, x ∈ dedupKeepFirst seen l ↔ x ∈ l ∧ x ∉ seen := by
  intro l
  induction l with
  | nil => intro seen; simp [dedupKeepFirst]
  | cons a rest ih =>
    intro seen
    by_cases ha : a ∈ seen
    · rw [dedupKeepFirst, if_pos ha]
      rw [ih]
      constructor
      · rintro ⟨h1, h2⟩
        exact ⟨List.mem_cons_of_mem _ h1, h2⟩
      · rintro ⟨h1, h2⟩
        rcases List.mem_cons.1 h1 with rfl | h1
        · exact absurd ha h2
        · exact ⟨h1, h2⟩
    · rw [dedupKeepFirst, if_neg ha]
      constructor
      · intro h
        rcases List.mem_cons.1 h with rfl | h
        · exact ⟨List.mem_cons_self _ _, ha⟩
        · rcases ih.1 h with ⟨h1, h2⟩
          have hxa : x ≠ a := fun he => h2 (he ▸ List.mem_cons_self a seen)
          exact ⟨List.mem_cons_of_mem _ h1,
            fun hx => h2 (List.mem_cons_of_mem _ hx)⟩
      · rintro ⟨h1, h2⟩
        rcases List.mem_cons.1 h1 with rfl | h1
        · exact List.mem_cons_self _ _
        · by_cases hxa : x = a
          · exact hxa ▸ List.mem_cons_self a _
          · refine List.mem_cons_of_mem _ (ih.2 ⟨h1, ?_⟩)
            intro hx
            rcases List.mem_cons.1 hx with h' | h'
            · exact hxa h'
            · exact h2 h'

/-- The merge arm of `addEntity` (`src/unnamed/part_002`, lines 40–57): the
updated canonical entity produced when candidate `cd` merges into existing
entity `ex`. -/
def mergeEntity (ex : Entity) (cd : Candidate) : Entity :=
  { ex with
    description := if cd.description = [] then ex.description else cd.description,
    aliases := dedupKeepFirst [] (ex.aliases ++ cd.aliases),
    confidence := some (max (jsOrQ ex.confidence (mkRat 7 10)) (jsOrQ cd.confidence (mkRat 7 10))),
    sources := ex.sources ++ cd.sources }

/-- Existing entity for the C3 counterexample: it already has a non-empty
description. -/
def exC3 : Entity :=
  { id := str "entity_1", name := str "Acme", typ := str "Organization",
    description := str "old description", aliases := [], confidence := some (mkRat 9 10),
    sources := [], props := [] }

/-- Candidate for the C3 counterexample: it also has a non-empty
description. -/
def cdC3 : Candidate :=
  { name := str "Acme", typ := str "Organization",
    description := str "new description", aliases := [], confidence := some (mkRat 8 10),
    sources := [], props := [] }

/-- Claim C3, counterexample: when both the existing and the candidate
description are non-empty, `addEntity`'s merge replaces the description
with the candidate's (JS `entity.description || existingEntity.description`),
while the claim says the existing description is kept. -/
theorem C3_counterexample :
    exC3.description ≠ str "" ∧ cdC3.description ≠ str "" ∧
      (mergeEntity exC3 cdC3).description ≠ exC3.description := by decide

/-- Claim C3, amended: on a merge the alias set becomes the union, the
confidence becomes the maximum of the two (each defaulted to 0.7 when
absent or zero), the sources are concatenated, and the description is
replaced by the candidate's whenever the candidate's is non-empty,
regardless of the existing description; only an empty candidate
description keeps the existing one. -/
theorem C3_amended (ex : Entity) (cd : Candidate) :
    (∀ a, a ∈ (mergeEntity ex cd).aliases ↔ a ∈ ex.aliases ∨ a ∈ cd.aliases) ∧
    (mergeEntity ex cd).confidence =
      some (max (jsOrQ ex.confidence (mkRat 7 10)) (jsOrQ cd.confidence (mkRat 7 10))) ∧
    (mergeEntity ex cd).sources = ex.sources ++ cd.sources ∧
    (mergeEntity ex cd).description =
      (if cd.description = [] then ex.description else cd.description) ∧
    (mergeEntity ex cd).id = ex.id := by
  refine ⟨?_, rfl, rfl, rfl, rfl⟩
  intro a
  show a ∈ dedupKeepFirst [] (ex.aliases ++ cd.aliases) ↔ _
  rw [mem_dedupKeepFirst]
  simp

/-! ## Relationship pre-filter of `saveRelationships`
(`src/graph-maker-web/src/services/neo4jService.js`, lines 374–429) -/

/-- A relationship candidate: `source`/`target` hold either canonical ids
or raw references; `sourceName`/`targetName` are the carried original
names, `[]` when absent (consistent with JS `||` falsiness). -/
structure RelCand where
  source : Str
  target : Str
  sourceName : Str
  targetName : Str
  typ : Str
deriving DecidableEq

/-- JS `Set.add` materialized on a list: append the element unless
present. -/
def pushUnique (l : List Str) (x : Str) : List Str :=
  if x ∈ l then l else l ++ [x]

/-- The endpoint-id collection of `saveRelationships` (lines 389–400):
every source and target id, deduplicated in insertion order. -/
def collectEndpointIds (rels : List RelCand) : List Str :=
  rels.foldl (fun acc r => pushUnique (pushUnique acc r.source) r.target) []

/-- `checkEntityIdsExist` (lines 323–367): the subset of the queried ids
present in the store.  `db` is the set of ids of entities in the store; the
JS batching into 100-id slices accumulates the same membership set. -/
def checkEntityIdsExist (db : List Str) (ids : List Str) : List Str :=
  ids.filter (fun i => decide (i ∈ db))

/-- The pre-filter of `saveRelationships` (lines 410–429): keep the
relationships whose two endpoints are valid; count every other
relationship once in `skipped` (the JS `filter` callback increments
`skipped` once per rejected relationship, short-circuiting on a missing
source). -/
def filterRelsByExistence (valid : List Str) : List RelCand → List RelCand × Nat
  | [] => ([], 0)
  | r :: rest =>
    let res := filterRelsByExistence valid rest
    if r.source ∈ valid then
      if r.target ∈ valid then (r :: res.1, res.2) else (res.1, res.2 + 1)
    else (res.1, res.2 + 1)

/-- The submission set and skipped count computed by `saveRelationships`
before any batch is sent to the store. -/
def saveRelationshipsFilter (db : List Str) (rels : List RelCand) : List RelCand × Nat :=
  filterRelsByExistence (checkEntityIdsExist db (collectEndpointIds rels)) rels

theorem filterRels_spec (valid : List Str) (rels : List RelCand) :
    (filterRelsByExistence valid rels).1 =
      rels.filter (fun r => decide (r.source ∈ valid) && decide (r.target ∈ valid)) ∧
    (filterRelsByExistence valid rels).2 =
      (rels.filter
        (fun r => !(decide (r.source ∈ valid) && decide (r.target ∈ valid)))).length := by
  induction rels with
  | nil => exact ⟨rfl, rfl⟩
  | cons r rest ih =>
    rcases ih with ⟨ih1, ih2⟩
    by_cases hs : r.source ∈ valid
    · by_cases ht : r.target ∈ valid
      · constructor
        · simp [filterRelsByExistence, hs, ht, List.filter_cons, ih1]
        · simp [filterRelsByExistence, hs, ht, List.filter_cons, ih2]
      · constructor
        · simp [filterRelsByExistence, hs, ht, List.filter_cons, ih1]
        · simp [filterRelsByExistence, hs, ht, List.filter_cons, ih2]
    · constructor
      · simp [filterRelsByExistence, hs, List.filter_cons, ih1]
      · simp [filterRelsByExistence, hs, List.filter_cons, ih2]

/-- Claim C1: every relationship submitted by `saveRelationships` has both
endpoints inside the id set returned by `checkEntityIdsExist` at the start
of the call; the submitted list is exactly the both-endpoints-valid
relationships in order, the relationships with a missing endpoint are
excluded, and each such relationship increments `skipped` exactly once
(`skipped` equals their count). -/
theorem C1_referential_integrity (db : List Str) (rels : List RelCand) :
    (∀ r ∈ (saveRelationshipsFilter db rels).1,
      r.source ∈ checkEntityIdsExist db (collectEndpointIds rels) ∧
      r.target ∈ checkEntityIdsExist db (collectEndpointIds rels)) ∧
    (saveRelationshipsFilter db rels).1 =
      rels.filter (fun r =>
        decide (r.source ∈ checkEntityIdsExist db (collectEndpointIds rels)) &&
        decide (r.target ∈ checkEntityIdsExist db (collectEndpointIds rels))) ∧
    (saveRelationshipsFilter db rels).2 =
      (rels.filter (fun r =>
        !(decide (r.source ∈ checkEntityIdsExist db (collectEndpointIds rels)) &&
          decide (r.target ∈ checkEntityIdsExist db (collectEndpointIds rels))))).length := by
  have hspec := filterRels_spec (checkEntityIdsExist db (collectEndpointIds rels)) rels
  refine ⟨?_, hspec.1, hspec.2⟩
  intro r hr
  rw [saveRelationshipsFilter, hspec.1] at hr
  have hb := List.of_mem_filter hr
  simp only [Bool.and_eq_true, decide_eq_true_eq] at hb
  exact hb

/-! ## Error accounting of `saveEntities`
(`src/graph-maker-web/src/services/neo4jService.js`, lines 161–316, and
the variant writer `src/unnamed/part_004`, lines 161–444) -/

/-- Outcome of writing one entity to the store: the upsert reports the row
as newly created or as merged, or the write throws. -/
inductive ItemOutcome where
  | createdNew
  | mergedExisting
  | failed
deriving DecidableEq

/-- The `{created, merged, errors}` counters returned by the entity
writers. -/
structure SaveCounters where
  created : Nat
  merged : Nat
  errors : Nat
deriving DecidableEq

/-- Count of one outcome in a batch. -/
def countOutcome (o : ItemOutcome) (items : List ItemOutcome) : Nat :=
  (items.filter (fun x => decide (x = o))).length

/-- Counter accounting of `saveEntities` in
`src/graph-maker-web/src/services/neo4jService.js`: a batch is a pair of
the transaction outcome (`true` = the batch UNWIND query succeeded and per
row reports created/merged) and the per-item outcomes.  On a failed batch
the code first adds the whole batch size to `errors` (line 243) and then
retries each item individually, counting created/merged per success and a
further error per persistent failure (lines 247–301); the batch-size bump
is never corrected. -/
def saveEntitiesCounters (batches : List (Bool × List ItemOutcome)) : SaveCounters :=
  batches.foldl
    (fun acc b =>
      if b.1 then
        { acc with
          created := acc.created + countOutcome ItemOutcome.createdNew b.2,
          merged := acc.merged + countOutcome ItemOutcome.mergedExisting b.2 }
      else
        { created := acc.created + countOutcome ItemOutcome.createdNew b.2,
          merged := acc.merged + countOutcome ItemOutcome.mergedExisting b.2,
          errors := acc.errors + b.2.length + countOutcome ItemOutcome.failed b.2 })
    ⟨0, 0, 0⟩

/-- Counter accounting of `saveEntities` in `src/unnamed/part_004`: same
structure, but after the per-item retry the code subtracts the retried
successes from `errors` (`errors -= (individualResults.created +
individualResults.merged)`, line 401), leaving exactly the persistent
failures counted. -/
def saveEntitiesCountersP4 (batches : List (Bool × List ItemOutcome)) : SaveCounters :=
  batches.foldl
    (fun acc b =>
      if b.1 then
        { acc with
          created := acc.created + countOutcome ItemOutcome.createdNew b.2,
          merged := acc.merged + countOutcome ItemOutcome.mergedExisting b.2 }
      else
        { created := acc.created + countOutcome ItemOutcome.createdNew b.2,
          merged := acc.merged + countOutcome ItemOutcome.mergedExisting b.2,
          errors := acc.errors + b.2.length + countOutcome ItemOutcome.failed b.2 -
            (countOutcome ItemOutcome.createdNew b.2 +
              countOutcome ItemOutcome.mergedExisting b.2) })
    ⟨0, 0, 0⟩

/-- Claim C7: the cited writer's counters do not account for every
submitted entity exactly once.  A single-entity batch whose batch write
fails but whose per-item retry succeeds is counted both as created and as
an error: the returned counters are `{created 1, merged 0, errors 1}`,
whose sum 2 exceeds the 1 submitted entity, and the error counter is
nonzero although no item failed after retry.  The variant writer of
`src/unnamed/part_004` returns `{created 1, merged 0, errors 0}` on the
same input, matching the claim. -/
theorem C7_error_double_count :
    saveEntitiesCounters [(false, [ItemOutcome.createdNew])] =
      { created := 1, merged := 0, errors := 1 } ∧
    saveEntitiesCountersP4 [(false, [ItemOutcome.createdNew])] =
      { created := 1, merged := 0, errors := 0 } := by decide

/-! ## Post-commit visibility verification (claim C9) -/

/-- Store operations the entity writers issue, abstracted from the Cypher
they run: a committed batch transaction, a failed batch transaction, an
individual fallback write, and an independent read of one entity id. -/
inductive StoreOp where
  | batchCommit (ids : List Str)
  | batchFail (ids : List Str)
  | itemWrite (id : Str)
  | verifyRead (id : Str)
deriving DecidableEq

/-- Is this operation a verification read? -/
def isVerifyRead : StoreOp → Bool
  | StoreOp.verifyRead _ => true
  | _ => false

/-- Operation trace of `saveEntities` in
`src/graph-maker-web/src/services/neo4jService.js`: per batch, one batch
query; on failure, one individual write per entity.  No read is ever
issued after a commit. -/
def gmEntityTrace (batches : List (List Str × Bool)) : List StoreOp :=
  (batches.map (fun b =>
    if b.2 then [StoreOp.batchCommit b.1]
    else StoreOp.batchFail b.1 :: b.1.map StoreOp.itemWrite)).flatten

/-- Operation trace of `saveEntities` in `src/unnamed/part_004`: after a
committed non-empty batch the writer opens a fresh session and reads back
the batch's first entity (lines 364–378) before the next batch; on batch
failure it falls back to individual writes. -/
def p4EntityTrace (batches : List (List Str × Bool)) : List StoreOp :=
  (batches.map (fun b =>
    if b.2 then
      StoreOp.batchCommit b.1 ::
        (match b.1 with
         | [] => []
         | e :: _ => [StoreOp.verifyRead e])
    else StoreOp.batchFail b.1 :: b.1.map StoreOp.itemWrite)).flatten

/-- Checks that every committed batch with at least one entity is
immediately followed by a verification read of its first entity. -/
def entityBatchesVerified : List StoreOp → Bool
  | [] => true
  | StoreOp.batchCommit [] :: rest => entityBatchesVerified rest
  | StoreOp.batchCommit (e :: _) :: StoreOp.verifyRead v :: rest =>
    decide (v = e) && entityBatchesVerified rest
  | StoreOp.batchCommit (_ :: _) :: _ => false
  | _ :: rest => entityBatchesVerified rest

theorem entityBatchesVerified_itemWrites (l : List Str) (rest : List StoreOp) :
    entityBatchesVerified (l.map StoreOp.itemWrite ++ rest) =
      entityBatchesVerified rest := by
  induction l with
  | nil => rfl
  | cons x xs ih => simpa [entityBatchesVerified] using ih

/-- Claim C9, counterexample: on a single committed batch the cited writer
issues exactly one operation, the batch commit, and no verification read
at all, so the post-commit read-back check fails. -/
theorem C9_counterexample :
    gmEntityTrace [([str "entity_1"], true)] =
      [StoreOp.batchCommit [str "entity_1"]] ∧
    (gmEntityTrace [([str "entity_1"], true)]).all (fun op => !isVerifyRead op) =
      true ∧
    entityBatchesVerified (gmEntityTrace [([str "entity_1"], true)]) = false := by
  decide

/-- Claim C9, amended: the writer that issues the post-commit verification
read is the variant `saveEntities` of `src/unnamed/part_004`: in its
trace, every committed non-empty batch is immediately followed by an
independent read of the batch's first entity before the writer proceeds;
the writer cited by the claim
(`src/graph-maker-web/src/services/neo4jService.js`) issues no such read. -/
theorem C9_amended (batches : List (List Str × Bool)) :
    entityBatchesVerified (p4EntityTrace batches) = true := by
  induction batches with
  | nil => rfl
  | cons b rest ih =>
    by_cases hb : b.2 = true
    · cases hl : b.1 with
      | nil =>
        simp [p4EntityTrace, hb, hl, entityBatchesVerified] at ih ⊢
        exact ih
      | cons e t =>
        simp [p4EntityTrace, hb, hl, entityBatchesVerified] at ih ⊢
        exact ih
    · have hb' : b.2 = false := by simpa using hb
      have hseg : p4EntityTrace (b :: rest) =
          StoreOp.batchFail b.1 ::
            (b.1.map StoreOp.itemWrite ++ p4EntityTrace rest) := by
        simp [p4EntityTrace, hb']
      rw [hseg]
      have hstep : entityBatchesVerified (StoreOp.batchFail b.1 ::
          (b.1.map StoreOp.itemWrite ++ p4EntityTrace rest)) =
          entityBatchesVerified (b.1.map StoreOp.itemWrite ++ p4EntityTrace rest) := by
        cases hmap : b.1.map StoreOp.itemWrite ++ p4EntityTrace rest with
        | nil => rfl
        | cons op ops => rfl
      rw [hstep, entityBatchesVerified_itemWrites]
      exact ih

/-! ## Insertion-ordered maps (JavaScript `Map`) -/

/-- `Map.get`: the value of the first (unique) entry with this key. -/
def mapGet {α : Type} (m : List (Str × α)) (k : Str) : Option α :=
  (m.find? (fun p => decide (p.1 = k))).map Prod.snd

/-- `Map.has`. -/
def mapHas {α : Type} (m : List (Str × α)) (k : Str) : Bool :=
  m.any (fun p => decide (p.1 = k))

/-- `Map.set`: update the entry in place when the key is present (keeping
the insertion order), append otherwise. -/
def mapSet {α : Type} (m : List (Str × α)) (k : Str) (v : α) : List (Str × α) :=
  if mapHas m k then m.map (fun p => if p.1 = k then (k, v) else p)
  else m ++ [(k, v)]

theorem mapGet_nil {α : Type} (k : Str) : mapGet ([] : List (Str × α)) k = none := rfl

theorem mapGet_cons {α : Type} (p : Str × α) (m : List (Str × α)) (k : Str) :
    mapGet (p :: m) k = if p.1 = k then some p.2 else mapGet m k := by
  by_cases h : p.1 = k
  · simp [mapGet, List.find?_cons, h]
  · simp [mapGet, List.find?_cons, h]

theorem mapGet_mem {α : Type} {m : List (Str × α)} {k : Str} {v : α}
    (h : mapGet m k = some v) : (k, v) ∈ m := by
  induction m with
  | nil => exact absurd h (by simp [mapGet])
  | cons p rest ih =>
    rw [mapGet_cons] at h
    by_cases hp : p.1 = k
    · rw [if_pos hp] at h
      have : p = (k, v) := by
        cases p
        injection h with h2
        simp only at hp h2
        rw [hp, h2]
      exact this ▸ List.mem_cons_self p rest
    · rw [if_neg hp] at h
      exact List.mem_cons_of_mem _ (ih h)

theorem mapGet_append_left {α : Type} {m1 : List (Str × α)} {k : Str} {v : α}
    (m2 : List (Str × α)) (h : mapGet m1 k = some v) :
    mapGet (m1 ++ m2) k = some v := by
  induction m1 with
  | nil => exact absurd h (by simp [mapGet])
  | cons p rest ih =>
    rw [mapGet_cons] at h
    rw [List.cons_append, mapGet_cons]
    by_cases hp : p.1 = k
    · rwa [if_pos hp] at h ⊢
    · rw [if_neg hp] at h ⊢
      exact ih h

theorem mapHas_cons {α : Type} (q : Str × α) (rest : List (Str × α)) (k : Str) :
    mapHas (q :: rest) k = (decide (q.1 = k) || mapHas rest k) := by
  simp [mapHas, List.any_cons]

theorem mapGet_map_update {α : Type} {m : List (Str × α)} {k : Str} (v : α)
    (h : mapHas m k = true) :
    mapGet (m.map (fun p => if p.1 = k then (k, v) else p)) k = some v := by
  induction m with
  | nil => exact absurd h (by simp [mapHas])
  | cons q rest ih =>
    rw [List.map_cons, mapGet_cons]
    by_cases hq : q.1 = k
    · rw [if_pos hq]
      simp
    · rw [if_neg hq, if_neg (by simpa [if_neg hq] using hq)]
      apply ih
      rw [mapHas_cons] at h
      simpa [hq] using h

theorem mapGet_append_skip {α : Type} {m : List (Str × α)} {k : Str}
    (m2 : List (Str × α)) (h : mapHas m k = false) :
    mapGet (m ++ m2) k = mapGet m2 k := by
  induction m with
  | nil => rfl
  | cons q rest ih =>
    rw [mapHas_cons] at h
    rcases Bool.or_eq_false_iff.1 h with ⟨h1, h2⟩
    rw [List.cons_append, mapGet_cons, if_neg (by simpa using h1)]
    exact ih h2

theorem mapGet_mapSet_self {α : Type} (m : List (Str × α)) (k : Str) (v : α) :
    mapGet (mapSet m k v) k = some v := by
  rw [mapSet]
  by_cases h : mapHas m k = true
  · rw [if_pos h]
    exact mapGet_map_update v h
  · have h' : mapHas m k = false := by simpa using h
    rw [if_neg h, mapGet_append_skip _ h', mapGet_cons, if_pos rfl]

theorem mapGet_map_update_ne {α : Type} (m : List (Str × α)) {k k' : Str} (v : α)
    (h : k' ≠ k) :
    mapGet (m.map (fun p => if p.1 = k then (k, v) else p)) k' = mapGet m k' := by
  induction m with
  | nil => rfl
  | cons q rest ih =>
    rw [List.map_cons, mapGet_cons, mapGet_cons]
    by_cases hq : q.1 = k
    · rw [if_pos hq]
      have hk' : ¬((k, v).1 = k') := by
        intro he
        exact h (by simpa using he.symm)
      rw [if_neg hk', if_neg (fun he => h (by rw [← he, hq]))]
      exact ih
    · rw [if_neg hq]
      by_cases hq' : q.1 = k'
      · rw [if_pos hq', if_pos hq']
      · rw [if_neg hq', if_neg hq']
        exact ih

theorem mapGet_append_single_ne {α : Type} (m : List (Str × α)) {k k' : Str} (v : α)
    (h : k' ≠ k) : mapGet (m ++ [(k, v)]) k' = mapGet m k' := by
  induction m with
  | nil =>
    rw [List.nil_append, mapGet_cons, if_neg (fun he : k = k' => h he.symm)]
  | cons q rest ih =>
    rw [List.cons_append, mapGet_cons, mapGet_cons]
    by_cases hq : q.1 = k'
    · rw [if_pos hq, if_pos hq]
    · rw [if_neg hq, if_neg hq]
      exact ih

theorem mapGet_mapSet_ne {α : Type} (m : List (Str × α)) {k k' : Str} (v : α)
    (h : k' ≠ k) : mapGet (mapSet m k v) k' = mapGet m k' := by
  rw [mapSet]
  by_cases hh : mapHas m k = true
  · rw [if_pos hh]
    exact mapGet_map_update_ne m v h
  · rw [if_neg hh]
    exact mapGet_append_single_ne m v h

/-! ## Relationship rewriter of `processPDF`
(`src/graph-maker-web/src/services/graphProcessorService.js`, lines 147–227) -/

/-- The case-insensitive name/alias-to-id mapping built after resolving a
document's entities (lines 147–154): every canonical name and every alias,
lower-cased, maps to the entity's id; later entries overwrite earlier ones
with the same key (JS `Map.set`). -/
def entityNameToIdMap (es : List Entity) : List (Str × Str) :=
  es.foldl
    (fun m e =>
      e.aliases.foldl (fun m2 a => mapSet m2 (jsToLower a) e.id)
        (mapSet m (jsToLower e.name) e.id))
    []

theorem mapSet_values {α : Type} {P : α → Prop} {m : List (Str × α)} {k : Str}
    {v : α} (hm : ∀ p ∈ m, P p.2) (hv : P v) :
    ∀ p ∈ mapSet m k v, P p.2 := by
  intro p hp
  rw [mapSet] at hp
  by_cases hh : mapHas m k = true
  · rw [if_pos hh] at hp
    rcases List.mem_map.1 hp with ⟨q, hq, he⟩
    by_cases hqk : q.1 = k
    · rw [if_pos hqk] at he
      rw [← he]
      exact hv
    · rw [if_neg hqk] at he
      exact he ▸ hm q hq
  · rw [if_neg hh] at hp
    rcases List.mem_append.1 hp with hp' | hp'
    · exact hm p hp'
    · rcases List.mem_singleton.1 hp' with rfl
      exact hv

theorem foldAlias_values {P : Str → Prop} {i : Str} (hi : P i) :
    ∀ (as : List Str) (m : List (Str × Str)), (∀ p ∈ m, P p.2) →
      ∀ p ∈ as.foldl (fun m2 a => mapSet m2 (jsToLower a) i) m, P p.2 := by
  intro as
  induction as with
  | nil => intro m hm; exact hm
  | cons a rest ih =>
    intro m hm
    rw [List.foldl_cons]
    exact ih _ (mapSet_values hm hi)

theorem entityNameToIdMap_values {es : List Entity} {k v : Str}
    (h : (k, v) ∈ entityNameToIdMap es) : v ∈ es.map Entity.id := by
  suffices hgen : ∀ (l : List Entity) (m : List (Str × Str)),
      (∀ p ∈ m, p.2 ∈ es.map Entity.id) → (∀ e ∈ l, e.id ∈ es.map Entity.id) →
      ∀ p ∈ l.foldl
        (fun m e => e.aliases.foldl (fun m2 a => mapSet m2 (jsToLower a) e.id)
          (mapSet m (jsToLower e.name) e.id)) m, p.2 ∈ es.map Entity.id by
    exact hgen es [] (by intro p hp; exact absurd hp (List.not_mem_nil p))
      (fun e he => List.mem_map.2 ⟨e, he, rfl⟩) (k, v) h
  intro l
  induction l with
  | nil => intro m hm _; exact hm
  | cons e rest ih =>
    intro m hm hl
    rw [List.foldl_cons]
    apply ih
    · exact foldAlias_values (hl e (List.mem_cons_self e rest)) e.aliases _
        (mapSet_values hm (hl e (List.mem_cons_self e rest)))
    · intro e' he'
      exact hl e' (List.mem_cons_of_mem _ he')

/-- Endpoint resolution inside the rewrite loop (lines 179–213): an
endpoint that is already a valid canonical id is kept; otherwise the best
available name (the carried original name, or the raw value when no name
was carried) is looked up, lower-cased, in the name/alias mapping. -/
def resolveEndpoint (ids : List Str) (nameMap : List (Str × Str))
    (raw carried : Str) : Option Str :=
  if raw ∈ ids then some raw
  else mapGet nameMap (jsToLower (if carried = [] then raw else carried))

/-- One step of the rewrite `map` (lines 157–227): a relationship with two
valid endpoints is kept unchanged; otherwise the source is resolved first
(dropping the relationship if this fails, before the target is examined),
then the target; on success the endpoint ids are replaced.  The JS also
stores `originalSource`/`originalTarget` debugging fields on the rewritten
object; they are not modelled. -/
def rewriteRel (ids : List Str) (nameMap : List (Str × Str)) (r : RelCand) :
    Option RelCand :=
  if r.source ∈ ids ∧ r.target ∈ ids then some r
  else
    match resolveEndpoint ids nameMap r.source r.sourceName with
    | none => none
    | some sid =>
      match resolveEndpoint ids nameMap r.target r.targetName with
      | none => none
      | some tid => some { r with source := sid, target := tid }

/-- The full rewriter: `allRelationships.map(...).filter(Boolean)`. -/
def rewriteRelationships (es : List Entity) (rels : List RelCand) : List RelCand :=
  rels.filterMap (rewriteRel (es.map Entity.id) (entityNameToIdMap es))

theorem resolveEndpoint_some {ids : List Str} {nameMap : List (Str × Str)}
    {raw carried x : Str} (h : resolveEndpoint ids nameMap raw carried = some x) :
    (x = raw ∧ raw ∈ ids) ∨
      mapGet nameMap (jsToLower (if carried = [] then raw else carried)) = some x := by
  rw [resolveEndpoint] at h
  by_cases hr : raw ∈ ids
  · rw [if_pos hr] at h
    injection h with h'
    exact Or.inl ⟨h'.symm, hr⟩
  · rw [if_neg hr] at h
    exact Or.inr h

theorem rewriteRel_some {ids : List Str} {nameMap : List (Str × Str)}
    {r r' : RelCand} (h : rewriteRel ids nameMap r = some r')
    (hvals : ∀ k v, mapGet nameMap k = some v → v ∈ ids) :
    r'.source ∈ ids ∧ r'.target ∈ ids ∧ r'.typ = r.typ ∧
      (r'.source = r.source ∨
        mapGet nameMap
          (jsToLower (if r.sourceName = [] then r.source else r.sourceName)) =
          some r'.source) ∧
      (r'.target = r.target ∨
        mapGet nameMap
          (jsToLower (if r.targetName = [] then r.target else r.targetName)) =
          some r'.target) := by
  rw [rewriteRel] at h
  by_cases hv : r.source ∈ ids ∧ r.target ∈ ids
  · rw [if_pos hv] at h
    injection h with h'
    subst h'
    exact ⟨hv.1, hv.2, rfl, Or.inl rfl, Or.inl rfl⟩
  · rw [if_neg hv] at h
    cases hs : resolveEndpoint ids nameMap r.source r.sourceName with
    | none => rw [hs] at h; exact absurd h (by simp)
    | some sid =>
      rw [hs] at h
      cases ht : resolveEndpoint ids nameMap r.target r.targetName with
      | none => rw [ht] at h; exact absurd h (by simp)
      | some tid =>
        rw [ht] at h
        injection h with h'
        subst h'
        have hsid : sid ∈ ids := by
          rcases resolveEndpoint_some hs with ⟨rfl, hin⟩ | hmap
          · exact hin
          · exact hvals _ _ hmap
        have htid : tid ∈ ids := by
          rcases resolveEndpoint_some ht with ⟨rfl, hin⟩ | hmap
          · exact hin
          · exact hvals _ _ hmap
        refine ⟨hsid, htid, rfl, ?_, ?_⟩
        · rcases resolveEndpoint_some hs with ⟨he, _⟩ | hmap
          · exact Or.inl he
          · exact Or.inr hmap
        · rcases resolveEndpoint_some ht with ⟨he, _⟩ | hmap
          · exact Or.inl he
          · exact Or.inr hmap

/-- Claim C8: every relationship produced by the rewriter has both
endpoints equal to ids of the final canonical entities; a relationship
whose endpoints are already valid ids passes through unchanged; a
relationship is dropped only when an endpoint is invalid (and then only
when the case-insensitive name lookup fails); and every rewritten endpoint
is either the already-valid raw id or the result of the name/alias mapping
applied to the carried original name (falling back to the raw value when
no name was carried). -/
theorem C8_rewriter (es : List Entity) (rels : List RelCand) :
    (∀ r ∈ rewriteRelationships es rels,
      r.source ∈ es.map Entity.id ∧ r.target ∈ es.map Entity.id) ∧
    (∀ r ∈ rels, r.source ∈ es.map Entity.id → r.target ∈ es.map Entity.id →
      rewriteRel (es.map Entity.id) (entityNameToIdMap es) r = some r ∧
        r ∈ rewriteRelationships es rels) ∧
    (∀ r : RelCand, rewriteRel (es.map Entity.id) (entityNameToIdMap es) r = none →
      ¬(r.source ∈ es.map Entity.id ∧ r.target ∈ es.map Entity.id)) ∧
    (∀ r : RelCand, ∀ r' : RelCand,
      rewriteRel (es.map Entity.id) (entityNameToIdMap es) r = some r' →
      r'.typ = r.typ ∧
        (r'.source = r.source ∨
          mapGet (entityNameToIdMap es)
            (jsToLower (if r.sourceName = [] then r.source else r.sourceName)) =
            some r'.source) ∧
        (r'.target = r.target ∨
          mapGet (entityNameToIdMap es)
            (jsToLower (if r.targetName = [] then r.target else r.targetName)) =
            some r'.target)) := by
  have hvals : ∀ k v, mapGet (entityNameToIdMap es) k = some v →
      v ∈ es.map Entity.id := fun k v h => entityNameToIdMap_values (mapGet_mem h)
  refine ⟨?_, ?_, ?_, ?_⟩
  · intro r hr
    rcases List.mem_filterMap.1 hr with ⟨r0, _, hw⟩
    have := rewriteRel_some hw hvals
    exact ⟨this.1, this.2.1⟩
  · intro r hr hs ht
    have heq : rewriteRel (es.map Entity.id) (entityNameToIdMap es) r = some r := by
      rw [rewriteRel, if_pos ⟨hs, ht⟩]
    exact ⟨heq, List.mem_filterMap.2 ⟨r, hr, heq⟩⟩
  · intro r hnone hv
    rw [rewriteRel, if_pos hv] at hnone
    exact absurd hnone (by simp)
  · intro r r' hw
    have := rewriteRel_some hw hvals
    exact ⟨this.2.2.1, this.2.2.2.1, this.2.2.2.2⟩

/-! ## String similarity and fuzzy matching (`src/unnamed/part_002`) -/

/-- JavaScript `str.split(' ')`: split on single spaces, preserving empty
segments (`''.split(' ')` is `['']`). -/
def splitOnSpaceAux (cur : Str) : Str → List Str
  | [] => [cur.reverse]
  | c :: rest =>
    if c = ' ' then cur.reverse :: splitOnSpaceAux [] rest
    else splitOnSpaceAux (c :: cur) rest

/-- `str.split(' ')`. -/
def splitOnSpace (s : Str) : List Str := splitOnSpaceAux [] s

example : splitOnSpace (str "a b") = [str "a", str "b"] := by decide
example : splitOnSpace (str "") = [str ""] := by decide

/-- One row update of the Levenshtein distance matrix: the elements are
`(s2 character, d[i-1][j-1], d[i-1][j])` and the accumulator carries
`d[i][j-1]`. -/
def levRowGo (c1 : Char) : List (Char × Nat × Nat) → Nat → List Nat
  | [], _ => []
  | (c2, pjm1, pj) :: rest, left =>
    let v := min (min (pj + 1) (left + 1)) (pjm1 + (if c1 = c2 then 0 else 1))
    v :: levRowGo c1 rest v

/-- Row `i` of the distance matrix from row `i-1`. -/
def levRow (c1 : Char) (s2 : Str) (prev : List Nat) (i : Nat) : List Nat :=
  i :: levRowGo c1 (s2.zip (prev.zip prev.tail)) i

/-- The Levenshtein distance exactly as `_calculateStringSimilarity`
computes it (`src/unnamed/part_002`, lines 285–309): dynamic programming
over a `(m+1) × (n+1)` matrix; the result is `d[m][n]`. -/
def levDistance (s1 s2 : Str) : Nat :=
  let row0 := List.range (s2.length + 1)
  let final := s1.foldl (fun acc c1 => (levRow c1 s2 acc.1 (acc.2 + 1), acc.2 + 1))
    (row0, 0)
  final.1.getLastD 0

example : levDistance (str "bp") (str "dp") = 1 := by decide
example : levDistance (str "kitten") (str "sitting") = 3 := by decide
example : levDistance (str "acme") (str "acmbe") = 1 := by decide

/-- `_calculateStringSimilarity` (`src/unnamed/part_002`, lines 274–310):
0 for a falsy argument, 1 for identical strings, 0 when the lengths differ
by more than half the longer length, else `1 - d/max(m,n)`.  The rational
values are built with `mkRat` (`1 - d/L` is `(L-d)/L`, `lengthDiff` is
`max - min`); `stringSimilarity_formula` below certifies the last branch
against the source formula. -/
def stringSimilarity (s1 s2 : Str) : ℚ :=
  if s1 = [] ∨ s2 = [] then 0
  else if s1 = s2 then 1
  else if mkRat ((max s1.length s2.length - min s1.length s2.length : Nat) : Int)
      (max s1.length s2.length) > mkRat 1 2 then 0
  else mkRat ((max s1.length s2.length : Int) - (levDistance s1 s2 : Int))
    (max s1.length s2.length)

theorem stringSimilarity_formula (s1 s2 : Str) (h1 : s1 ≠ []) (h2 : s2 ≠ [])
    (hne : s1 ≠ s2)
    (hlen : ¬(mkRat ((max s1.length s2.length - min s1.length s2.length : Nat) : Int)
      (max s1.length s2.length) > mkRat 1 2)) :
    stringSimilarity s1 s2 =
      1 - (levDistance s1 s2 : ℚ) / ((max s1.length s2.length : Nat) : ℚ) := by
  have hm : ((max s1.length s2.length : Nat) : ℚ) ≠ 0 := by
    have : s1.length ≠ 0 := fun h => h1 (List.length_eq_zero.1 h)
    positivity
  rw [stringSimilarity, if_neg (by simp [h1, h2]), if_neg hne, if_neg hlen,
    Rat.mkRat_eq_div]
  push_cast
  rw [eq_sub_iff_add_eq, div_add_div_same]
  have hm' : ((s1.length : ℚ) ⊔ (s2.length : ℚ)) ≠ 0 := by push_cast at hm; exact hm
  have harith : (s1.length : ℚ) ⊔ (s2.length : ℚ) - (levDistance s1 s2 : ℚ) +
      (levDistance s1 s2 : ℚ) = (s1.length : ℚ) ⊔ (s2.length : ℚ) := by ring
  rw [harith, div_self hm']

example : stringSimilarity (str "bp") (str "dp") = mkRat 1 2 := by decide
example : stringSimilarity (str "acme") (str "acmbe") = mkRat 4 5 := by decide

/-- Inner loop of the word-pattern matcher (lines 369–379): find the first
word of `cands` that contains `word` or is contained in it, returning the
remaining words after the match (`lastMatchIndex` advances past it). -/
def findFirstWordMatch (word : Str) : List Str → Option (List Str)
  | [] => none
  | w :: rest =>
    if strIncludes w word || strIncludes word w then some rest
    else findFirstWordMatch word rest

/-- Count of words of the candidate name found, in order, among the words
of the indexed name (lines 366–379); words shorter than 3 characters are
skipped, and a word with no match leaves the search position unchanged. -/
def countOrderedMatches : List Str → List Str → Nat
  | [], _ => 0
  | w :: ws, cands =>
    if w.length < 3 then countOrderedMatches ws cands
    else
      match findFirstWordMatch w cands with
      | some rest => 1 + countOrderedMatches ws rest
      | none => countOrderedMatches ws cands

/-- The pattern score of `_findBestMatch` (lines 355–383): 0.85 when one
normalized string contains the other; otherwise, for two multi-word names,
`0.7 + ratio*0.2` when the in-order word-match ratio exceeds 0.6, else 0.
`0.7 + ratio*0.2` is written over the common denominator `10*mn`;
`patternScore_formula` certifies it against the source formula. -/
def patternScore (key cand : Str) : ℚ :=
  if strIncludes cand key || strIncludes key cand then mkRat 85 100
  else if (splitOnSpace key).length > 1 ∧ (splitOnSpace cand).length > 1 then
    if mkRat (countOrderedMatches (splitOnSpace key) (splitOnSpace cand))
        (min (splitOnSpace key).length (splitOnSpace cand).length) > mkRat 6 10 then
      mkRat (7 * min (splitOnSpace key).length (splitOnSpace cand).length +
          2 * countOrderedMatches (splitOnSpace key) (splitOnSpace cand))
        (10 * min (splitOnSpace key).length (splitOnSpace cand).length)
    else 0
  else 0

theorem patternScore_formula (mc mn : Nat) (hmn : mn ≠ 0) :
    (mkRat (7 * mn + 2 * mc) (10 * mn) : ℚ) =
      7/10 + (mkRat mc mn : ℚ) * (2/10) := by
  have h : ((mn : ℚ)) ≠ 0 := by exact_mod_cast hmn
  rw [Rat.mkRat_eq_div, Rat.mkRat_eq_div]
  push_cast
  field_simp
  ring

/-- The length-adjusted fuzzy floor (line 353): 0.85 for a normalized
canonical name of fewer than 5 characters, else 0.65. -/
def minThresholdFor (candName : Str) : ℚ :=
  if candName.length < 5 then mkRat 85 100 else mkRat 65 100

/-- Score of one alias comparison (lines 397–407): edit similarity against
the normalized alias, or 0.85 on containment; no word-pattern matching for
aliases. -/
def aliasComparisonScore (key al : Str) : ℚ :=
  max (stringSimilarity key (normalizeString al))
    (if strIncludes (normalizeString al) key || strIncludes key (normalizeString al)
      then mkRat 85 100 else 0)

/-- All comparison scores one entity contributes to the fuzzy loop, in
evaluation order: the name comparison (edit similarity vs pattern score),
then one comparison per alias. -/
def comparisonScores (key : Str) (e : Entity) : List ℚ :=
  max (stringSimilarity key (normalizeString e.name))
    (patternScore key (normalizeString e.name)) ::
  e.aliases.map (fun a => aliasComparisonScore key a)

/-- Running state of the fuzzy loop: best score so far and its entity. -/
structure FuzzyState where
  bestScore : ℚ
  bestId : Option Str
deriving DecidableEq

/-- One comparison update (lines 391–394 and 409–412): the candidate wins
only when its score strictly exceeds both the running best and the
entity's length-adjusted floor. -/
def scoreUpdate (i : Str) (thr : ℚ) (st : FuzzyState) (s : ℚ) : FuzzyState :=
  if s > st.bestScore ∧ s > thr then ⟨s, some i⟩ else st

/-- All comparisons of one entity, folded in evaluation order; the floor is
computed once from the entity's normalized name and reused for the alias
comparisons. -/
def fuzzyStepEntity (key : Str) (st : FuzzyState) (i : Str) (e : Entity) :
    FuzzyState :=
  (comparisonScores key e).foldl
    (scoreUpdate i (minThresholdFor (normalizeString e.name))) st

/-- The fuzzy stage of `_findBestMatch` (lines 340–416): iterate over all
canonical entities in insertion order, skipping entities of a different
type when a (truthy) type is given; the running best starts at the global
floor 0.65 with no winner. -/
def fuzzyLoop (ents : List (Str × Entity)) (key : Str) (typ : Str) : Option Str :=
  (ents.foldl
    (fun st p =>
      if typ ≠ [] ∧ p.2.typ ≠ typ then st else fuzzyStepEntity key st p.1 p.2)
    ⟨mkRat 65 100, none⟩).bestId

/-! ## Substring matches, the match cascade and `addEntity`
(`src/unnamed/part_002`) -/

/-- The resolver state (`constructor`/`reset`): the canonical store, the
normalized-name index and the alias index, all insertion-ordered maps.
`nextId` drives fresh-id allocation: `src/unnamed/part_002` draws a fresh
uuid per new entity, modelled by a deterministic counter (what matters is
that ids are opaque and the counter is the state the web variant
`entityResolutionService.js` uses, `entity_${nextEntityId++}`). -/
structure Resolver where
  canonicalEntities : List (Str × Entity)
  entityIndex : List (Str × Str)
  aliasMap : List (Str × Str)
  nextId : Nat

/-- The search terms of `_findSubstringMatches` (lines 427–436): the key
itself and, for a multi-word key, its acronym (first character of each
word) when longer than one character.  The normalizer never produces empty
words inside a multi-word key, so `take 1` coincides with `word[0]`. -/
def searchTerms (key : Str) : List Str :=
  if (splitOnSpace key).length > 1 then
    if (((splitOnSpace key).map (fun w => w.take 1)).flatten).length > 1 then
      [key, ((splitOnSpace key).map (fun w => w.take 1)).flatten]
    else [key]
  else [key]

/-- One indexed string is a substring hit when some search term contains
it or is contained in it (lines 441–443). -/
def substringHit (terms : List Str) (t : Str) : Bool :=
  terms.any (fun term => strIncludes t term || strIncludes term t)

/-- `_findSubstringMatches` (lines 425–463): scan the name index in order,
collecting the id of every hit (unconditionally), then scan the alias map,
appending ids not already collected. -/
def findSubstringMatches (R : Resolver) (key : Str) : List Str :=
  R.aliasMap.foldl
    (fun acc p => if substringHit (searchTerms key) p.1 then pushUnique acc p.2 else acc)
    ((R.entityIndex.filter (fun p => substringHit (searchTerms key) p.1)).map Prod.snd)

/-- Selection among substring matches (lines 324–338): with a truthy type,
the first match of that type wins when one exists; otherwise the first
match. -/
def chooseSubstringMatch (ents : List (Str × Entity)) (ms : List Str)
    (typ : Str) : Option Str :=
  if typ ≠ [] then
    match ms.filter (fun i =>
      match mapGet ents i with
      | some e => decide (e.typ = typ)
      | none => false) with
    | t0 :: _ => some t0
    | [] => ms.head?
  else ms.head?

/-- `_findBestMatch` (lines 319–417): substring/acronym matches take
priority; the fuzzy loop runs only when there is none. -/
def findBestMatch (R : Resolver) (key : Str) (typ : Str) : Option Str :=
  if findSubstringMatches R key = [] then fuzzyLoop R.canonicalEntities key typ
  else chooseSubstringMatch R.canonicalEntities (findSubstringMatches R key) typ

/-- JavaScript `a || b` on id lookups: `undefined` and the empty string
are falsy. -/
def jsOrOptStr (a b : Option Str) : Option Str :=
  match a with
  | none => b
  | some s => if s = [] then b else some s

/-- Fresh opaque id for a new canonical entity. -/
def mkFreshId (n : Nat) : Str := str "entity_" ++ Nat.toDigits 10 n

/-- Alias registration of the merge arm (lines 62–67): each candidate
alias is registered under its normalized form only when the alias map does
not already bind it. -/
def registerAliasesIfAbsent (m : List (Str × Str)) (as : List Str) (i : Str) :
    List (Str × Str) :=
  as.foldl
    (fun acc a =>
      if mapHas acc (normalizeString a) then acc
      else acc ++ [(normalizeString a, i)]) m

/-- Alias registration of the create arm (lines 92–95): unconditional
`Map.set`, overwriting existing bindings. -/
def registerAliasesOverwrite (m : List (Str × Str)) (as : List Str) (i : Str) :
    List (Str × Str) :=
  as.foldl (fun acc a => mapSet acc (normalizeString a) i) m

/-- Merge arm of `addEntity` (lines 40–69): dereference the matched id and
fold the candidate in.  The JS dereferences
`canonicalEntities.get(existingId)` without a check; a state in which a
match id has no stored entity would throw, modelled by `none`. -/
def addEntityMergeArm (R : Resolver) (c : Candidate) (eid : Str) :
    Option (Resolver × Entity) :=
  match mapGet R.canonicalEntities eid with
  | none => none
  | some ex =>
    some ({ R with
      canonicalEntities := mapSet R.canonicalEntities eid (mergeEntity ex c),
      aliasMap := registerAliasesIfAbsent R.aliasMap c.aliases eid },
      mergeEntity ex c)

/-- Create arm of `addEntity` (lines 70–98): store a fresh canonical
entity, index its normalized name and register its aliases. -/
def addEntityCreateArm (R : Resolver) (c : Candidate) : Resolver × Entity :=
  ({ canonicalEntities := mapSet R.canonicalEntities (mkFreshId R.nextId)
      ({ id := mkFreshId R.nextId, name := c.name, typ := c.typ,
         description := c.description, aliases := c.aliases,
         confidence := some (jsOrQ c.confidence (mkRat 9 10)),
         sources := c.sources, props := c.props }),
     entityIndex := mapSet R.entityIndex (normalizeString c.name) (mkFreshId R.nextId),
     aliasMap := registerAliasesOverwrite R.aliasMap c.aliases (mkFreshId R.nextId),
     nextId := R.nextId + 1 },
   { id := mkFreshId R.nextId, name := c.name, typ := c.typ,
     description := c.description, aliases := c.aliases,
     confidence := some (jsOrQ c.confidence (mkRat 9 10)),
     sources := c.sources, props := c.props })

/-- `addEntity` (`src/unnamed/part_002`, lines 33–99): normalize the name,
look it up in the name index, fall back to `_findBestMatch`; merge on a
hit, create otherwise. -/
def addEntity (R : Resolver) (c : Candidate) : Option (Resolver × Entity) :=
  match jsOrOptStr (mapGet R.entityIndex (normalizeString c.name))
      (findBestMatch R (normalizeString c.name) c.typ) with
  | some eid => addEntityMergeArm R c eid
  | none => some (addEntityCreateArm R c)

/-- The lookup cascade of `findEntityByName` (lines 117–134): name index,
then alias index, then `_findBestMatch`, first truthy hit winning. -/
def lookupEntityId (R : Resolver) (key : Str) (typ : Str) : Option Str :=
  jsOrOptStr (jsOrOptStr (mapGet R.entityIndex key) (mapGet R.aliasMap key))
    (findBestMatch R key typ)

theorem addEntity_eq_merge {R : Resolver} {c : Candidate} {eid : Str}
    (hsel : jsOrOptStr (mapGet R.entityIndex (normalizeString c.name))
      (findBestMatch R (normalizeString c.name) c.typ) = some eid) :
    addEntity R c = addEntityMergeArm R c eid := by
  unfold addEntity
  rw [hsel]

theorem addEntity_eq_create {R : Resolver} {c : Candidate}
    (hsel : jsOrOptStr (mapGet R.entityIndex (normalizeString c.name))
      (findBestMatch R (normalizeString c.name) c.typ) = none) :
    addEntity R c = some (addEntityCreateArm R c) := by
  unfold addEntity
  rw [hsel]

theorem addEntityMergeArm_eq {R : Resolver} {c : Candidate} {eid : Str} {ex : Entity}
    (hget : mapGet R.canonicalEntities eid = some ex) :
    addEntityMergeArm R c eid =
      some ({ R with
        canonicalEntities := mapSet R.canonicalEntities eid (mergeEntity ex c),
        aliasMap := registerAliasesIfAbsent R.aliasMap c.aliases eid },
        mergeEntity ex c) := by
  unfold addEntityMergeArm
  rw [hget]

/-- The canonical entity named "DP" used by the C5 short-string scenario. -/
def dpEntity : Entity :=
  { id := str "entity_1", name := str "DP", typ := str "Organization",
    description := [], aliases := [], confidence := some (mkRat 9 10),
    sources := [], props := [] }

/-- A resolver state holding only the canonical entity "DP". -/
def dpState : Resolver :=
  { canonicalEntities := [(str "entity_1", dpEntity)],
    entityIndex := [(str "dp", str "entity_1")],
    aliasMap := [], nextId := 2 }

/-- The candidate named "BP" of the C5 short-string scenario. -/
def bpCand : Candidate :=
  { name := str "BP", typ := str "Organization", description := [],
    aliases := [], confidence := none, sources := [], props := [] }

example : findSubstringMatches dpState (str "bp") = [] := by decide
example : fuzzyLoop dpState.canonicalEntities (str "bp") (str "Organization") = none := by
  decide
example : (addEntity dpState bpCand).map (fun r => r.2.id) = some (str "entity_2") := by
  decide

theorem scoreUpdate_mono (i : Str) (thr : ℚ) (st : FuzzyState) (s : ℚ) :
    st.bestScore ≤ (scoreUpdate i thr st s).bestScore := by
  rw [scoreUpdate]
  by_cases h : s > st.bestScore ∧ s > thr
  · rw [if_pos h]
    exact le_of_lt h.1
  · rw [if_neg h]

theorem scoreFold_mono (i : Str) (thr : ℚ) :
    ∀ (scores : List ℚ) (st : FuzzyState),
      st.bestScore ≤ (scores.foldl (scoreUpdate i thr) st).bestScore := by
  intro scores
  induction scores with
  | nil => intro st; exact le_refl _
  | cons s rest ih =>
    intro st
    rw [List.foldl_cons]
    exact le_trans (scoreUpdate_mono i thr st s) (ih _)

theorem scoreFold_sound (i : Str) (thr : ℚ) :
    ∀ (scores : List ℚ) (st : FuzzyState) (j : Str),
      (scores.foldl (scoreUpdate i thr) st).bestId = some j →
      scores.foldl (scoreUpdate i thr) st = st ∨
        (j = i ∧ ∃ s ∈ scores, s = (scores.foldl (scoreUpdate i thr) st).bestScore ∧
          s > thr ∧ s > st.bestScore) := by
  intro scores
  induction scores with
  | nil => intro st j _; exact Or.inl rfl
  | cons s0 rest ih =>
    intro st j hj
    rw [List.foldl_cons] at hj ⊢
    by_cases hc : s0 > st.bestScore ∧ s0 > thr
    · rw [scoreUpdate, if_pos hc] at hj ⊢
      rcases ih ⟨s0, some i⟩ j hj with heq | ⟨hji, s, hs, hval, hthr, hgt⟩
      · rw [heq] at hj ⊢
        have hij : some i = some j := hj
        injection hij with hij2
        exact Or.inr ⟨hij2.symm, s0, List.mem_cons_self _ _, rfl, hc.2, hc.1⟩
      · exact Or.inr ⟨hji, s, List.mem_cons_of_mem _ hs, hval, hthr,
          lt_trans hc.1 hgt⟩
    · rw [scoreUpdate, if_neg hc] at hj ⊢
      rcases ih st j hj with heq | ⟨hji, s, hs, hval, hthr, hgt⟩
      · exact Or.inl heq
      · exact Or.inr ⟨hji, s, List.mem_cons_of_mem _ hs, hval, hthr, hgt⟩

theorem fuzzyFold_mono (key typ : Str) :
    ∀ (l : List (Str × Entity)) (st : FuzzyState),
      st.bestScore ≤
        (l.foldl (fun st p =>
          if typ ≠ [] ∧ p.2.typ ≠ typ then st else fuzzyStepEntity key st p.1 p.2)
          st).bestScore := by
  intro l
  induction l with
  | nil => intro st; exact le_refl _
  | cons p rest ih =>
    intro st
    rw [List.foldl_cons]
    refine le_trans ?_ (ih _)
    by_cases hc : typ ≠ [] ∧ p.2.typ ≠ typ
    · rw [if_pos hc]
    · rw [if_neg hc]
      exact scoreFold_mono _ _ _ _

theorem fuzzyFold_sound (key typ : Str) :
    ∀ (l : List (Str × Entity)) (st : FuzzyState) (j : Str),
      (l.foldl (fun st p =>
        if typ ≠ [] ∧ p.2.typ ≠ typ then st else fuzzyStepEntity key st p.1 p.2)
        st).bestId = some j →
      st.bestId = some j ∨
        ∃ e, (j, e) ∈ l ∧ (typ ≠ [] → e.typ = typ) ∧
          ∃ s ∈ comparisonScores key e,
            s > minThresholdFor (normalizeString e.name) ∧ s > st.bestScore := by
  intro l
  induction l with
  | nil => intro st j hj; exact Or.inl hj
  | cons p rest ih =>
    intro st j hj
    rw [List.foldl_cons] at hj
    rcases ih _ j hj with h1 | ⟨e, he, hty, s, hs, hthr, hgt⟩
    · by_cases hc : typ ≠ [] ∧ p.2.typ ≠ typ
      · rw [if_pos hc] at h1
        exact Or.inl h1
      · rw [if_neg hc] at h1
        rcases scoreFold_sound p.1 (minThresholdFor (normalizeString p.2.name))
            (comparisonScores key p.2) st j h1 with heq | ⟨rfl, s, hs, _, hthr, hgt⟩
        · rw [fuzzyStepEntity] at h1
          rw [heq] at h1
          exact Or.inl h1
        · refine Or.inr ⟨p.2, ?_, ?_, s, hs, hthr, hgt⟩
          · have : p = (p.1, p.2) := rfl
            rw [← this]
            exact List.mem_cons_self p rest
          · intro ht
            by_cases hpt : p.2.typ = typ
            · exact hpt
            · exact absurd ⟨ht, hpt⟩ hc
    · refine Or.inr ⟨e, List.mem_cons_of_mem _ he, hty, s, hs, hthr, ?_⟩
      refine lt_of_le_of_lt ?_ hgt
      by_cases hc : typ ≠ [] ∧ p.2.typ ≠ typ
      · rw [if_pos hc]
      · rw [if_neg hc]
        exact scoreFold_mono _ _ _ _

/-- Claim C5: a fuzzy winner must have achieved, on one of its comparisons
(name or alias), a score strictly above both the global floor 0.65 and the
length-adjusted floor (0.85 when the compared canonical name is shorter
than 5 characters, else 0.65); and concretely, in a store containing only
the canonical entity "DP" (2 characters, floor 0.85), resolving candidate
"BP" does not match it - a fresh canonical entity `entity_2` is created
and the store grows to two entities. -/
theorem C5_fuzzy_floors :
    (∀ (ents : List (Str × Entity)) (key typ i : Str),
      fuzzyLoop ents key typ = some i →
      ∃ e, (i, e) ∈ ents ∧
        ∃ s ∈ comparisonScores key e,
          s > mkRat 65 100 ∧ s > minThresholdFor (normalizeString e.name)) ∧
    minThresholdFor (normalizeString dpEntity.name) = mkRat 85 100 ∧
    (addEntity dpState bpCand).map (fun r => (r.2.id, r.1.canonicalEntities.length)) =
      some (str "entity_2", 2) ∧
    (str "entity_2") ∉ dpState.canonicalEntities.map Prod.fst := by
  refine ⟨?_, by decide, by decide, by decide⟩
  intro ents key typ i hwin
  rw [fuzzyLoop] at hwin
  rcases fuzzyFold_sound key typ ents ⟨mkRat 65 100, none⟩ i hwin with h | ⟨e, he, _, s, hs, hthr, hgt⟩
  · exact absurd h (by simp)
  · exact ⟨e, he, s, hs, hgt, hthr⟩

theorem jsOrOptStr_none (b : Option Str) : jsOrOptStr none b = b := rfl

theorem jsOrOptStr_some (s : Str) (b : Option Str) :
    jsOrOptStr (some s) b = if s = [] then b else some s := rfl

theorem chooseSubstringMatch_mem (ents : List (Str × Entity)) (ms : List Str)
    (typ : Str) (hne : ms ≠ []) :
    ∃ m ∈ ms, chooseSubstringMatch ents ms typ = some m := by
  rw [chooseSubstringMatch]
  by_cases ht : typ ≠ []
  · rw [if_pos ht]
    cases hf : ms.filter (fun i =>
      match mapGet ents i with
      | some e => decide (e.typ = typ)
      | none => false) with
    | cons t0 rest =>
      refine ⟨t0, ?_, rfl⟩
      exact List.mem_of_mem_filter (hf ▸ List.mem_cons_self t0 rest)
    | nil =>
      cases ms with
      | nil => exact absurd rfl hne
      | cons m0 mrest => exact ⟨m0, List.mem_cons_self _ _, rfl⟩
  · rw [if_neg ht]
    cases ms with
    | nil => exact absurd rfl hne
    | cons m0 mrest => exact ⟨m0, List.mem_cons_self _ _, rfl⟩

/-- Claim C6: the lookup cascade of `findEntityByName` resolves in strict
priority order with the first hit winning: (1) an exact normalized-name
index hit is returned outright; (2) otherwise an exact alias-index hit;
(3) otherwise, when substring/acronym matches exist, one of them is
returned - the first match whose entity type equals a requested type when
there is one, else the first match found; (4) the fuzzy stage runs only
when there is no substring match at all. -/
theorem C6_cascade (R : Resolver) (key typ : Str) :
    (∀ i, mapGet R.entityIndex key = some i → i ≠ [] →
      lookupEntityId R key typ = some i) ∧
    (mapGet R.entityIndex key = none →
      ∀ j, mapGet R.aliasMap key = some j → j ≠ [] →
        lookupEntityId R key typ = some j) ∧
    (mapGet R.entityIndex key = none → mapGet R.aliasMap key = none →
      findSubstringMatches R key ≠ [] →
      lookupEntityId R key typ =
        chooseSubstringMatch R.canonicalEntities (findSubstringMatches R key) typ ∧
      (∃ m ∈ findSubstringMatches R key, lookupEntityId R key typ = some m) ∧
      (typ ≠ [] →
        lookupEntityId R key typ =
          (if ((findSubstringMatches R key).filter (fun i =>
              match mapGet R.canonicalEntities i with
              | some e => decide (e.typ = typ)
              | none => false)) ≠ [] then
            ((findSubstringMatches R key).filter (fun i =>
              match mapGet R.canonicalEntities i with
              | some e => decide (e.typ = typ)
              | none => false)).head?
          else (findSubstringMatches R key).head?)) ∧
      (typ = [] → lookupEntityId R key typ = (findSubstringMatches R key).head?)) ∧
    (mapGet R.entityIndex key = none → mapGet R.aliasMap key = none →
      findSubstringMatches R key = [] →
      lookupEntityId R key typ = fuzzyLoop R.canonicalEntities key typ) := by
  refine ⟨?_, ?_, ?_, ?_⟩
  · intro i hi hine
    rw [lookupEntityId, hi, jsOrOptStr_some, if_neg hine, jsOrOptStr_some, if_neg hine]
  · intro hidx j hj hjne
    rw [lookupEntityId, hidx, jsOrOptStr_none, hj, jsOrOptStr_some, if_neg hjne]
  · intro hidx hal hms
    have hlook : lookupEntityId R key typ =
        chooseSubstringMatch R.canonicalEntities (findSubstringMatches R key) typ := by
      rw [lookupEntityId, hidx, jsOrOptStr_none, hal, jsOrOptStr_none,
        findBestMatch, if_neg hms]
    refine ⟨hlook, ?_, ?_, ?_⟩
    · rcases chooseSubstringMatch_mem R.canonicalEntities
        (findSubstringMatches R key) typ hms with ⟨m, hm, he⟩
      exact ⟨m, hm, hlook.trans he⟩
    · intro ht
      rw [hlook, chooseSubstringMatch, if_pos ht]
      cases hf : (findSubstringMatches R key).filter (fun i =>
        match mapGet R.canonicalEntities i with
        | some e => decide (e.typ = typ)
        | none => false) with
      | cons t0 rest =>
        rw [if_pos (List.cons_ne_nil t0 rest)]
        rfl
      | nil =>
        rw [if_neg (fun h => h rfl)]
    · intro ht
      rw [hlook, chooseSubstringMatch, if_neg (by rw [ht]; exact fun h => h rfl)]
  · intro hidx hal hms
    rw [lookupEntityId, hidx, jsOrOptStr_none, hal, jsOrOptStr_none,
      findBestMatch, if_pos hms]

/-! ## Behaviour on an empty normalized name (claim C10) -/

theorem strIncludes_empty (t : Str) : strIncludes t [] = true := by
  cases t with
  | nil => rfl
  | cons c rest =>
    rw [strIncludes, List.any_eq_true]
    exact ⟨c :: rest, by simp [List.tails], rfl⟩

theorem searchTerms_empty : searchTerms [] = [[]] := by decide

theorem substringHit_emptyKey (t : Str) :
    substringHit (searchTerms []) t = true := by
  rw [searchTerms_empty, substringHit, List.any_eq_true]
  exact ⟨[], List.mem_singleton.2 rfl, by rw [strIncludes_empty t]; rfl⟩

theorem foldPushUnique_structure (terms : List Str) :
    ∀ (l : List (Str × Str)) (init : List Str),
      ∃ extra,
        l.foldl (fun acc p =>
          if substringHit terms p.1 then pushUnique acc p.2 else acc) init =
          init ++ extra ∧ ∀ x ∈ extra, x ∈ l.map Prod.snd := by
  intro l
  induction l with
  | nil =>
    intro init
    exact ⟨[], by simp, by simp⟩
  | cons p rest ih =>
    intro init
    rw [List.foldl_cons]
    by_cases hp : substringHit terms p.1 = true
    · rw [if_pos hp]
      rw [pushUnique]
      by_cases hin : p.2 ∈ init
      · rw [if_pos hin]
        rcases ih init with ⟨extra, he, hmem⟩
        exact ⟨extra, he, fun x hx => List.mem_cons_of_mem _ (hmem x hx)⟩
      · rw [if_neg hin]
        rcases ih (init ++ [p.2]) with ⟨extra, he, hmem⟩
        refine ⟨[p.2] ++ extra, by rw [he, List.append_assoc], ?_⟩
        intro x hx
        rcases List.mem_append.1 hx with hx' | hx'
        · rcases List.mem_singleton.1 hx' with rfl
          exact List.mem_cons_self _ _
        · exact List.mem_cons_of_mem _ (hmem x hx')
    · rw [if_neg hp]
      rcases ih init with ⟨extra, he, hmem⟩
      exact ⟨extra, he, fun x hx => List.mem_cons_of_mem _ (hmem x hx)⟩

theorem findSubstringMatches_sources {R : Resolver} {key : Str} {m : Str}
    (h : m ∈ findSubstringMatches R key) :
    m ∈ R.entityIndex.map Prod.snd ∨ m ∈ R.aliasMap.map Prod.snd := by
  rw [findSubstringMatches] at h
  rcases foldPushUnique_structure (searchTerms key) R.aliasMap
    ((R.entityIndex.filter (fun p => substringHit (searchTerms key) p.1)).map Prod.snd)
    with ⟨extra, he, hmem⟩
  rw [he] at h
  rcases List.mem_append.1 h with h' | h'
  · rcases List.mem_map.1 h' with ⟨p, hp, rfl⟩
    exact Or.inl (List.mem_map.2 ⟨p, List.mem_of_mem_filter hp, rfl⟩)
  · exact Or.inr (hmem m h')

theorem findSubstringMatches_emptyKey (R : Resolver) :
    ∃ extra, findSubstringMatches R [] = R.entityIndex.map Prod.snd ++ extra := by
  rw [findSubstringMatches]
  have hfil : R.entityIndex.filter
      (fun p => substringHit (searchTerms []) p.1) = R.entityIndex :=
    List.filter_eq_self.2 (fun p _ => substringHit_emptyKey p.1)
  rw [hfil]
  rcases foldPushUnique_structure (searchTerms []) R.aliasMap
    (R.entityIndex.map Prod.snd) with ⟨extra, he, _⟩
  exact ⟨extra, he⟩

theorem mapHas_of_key_mem {α : Type} {m : List (Str × α)} {k : Str}
    (h : k ∈ m.map Prod.fst) : mapHas m k = true := by
  rcases List.mem_map.1 h with ⟨p, hp, rfl⟩
  rw [mapHas, List.any_eq_true]
  exact ⟨p, hp, by simp⟩

theorem mapGet_some_of_key_mem {α : Type} {m : List (Str × α)} {k : Str}
    (h : k ∈ m.map Prod.fst) : ∃ v, mapGet m k = some v := by
  rcases List.mem_map.1 h with ⟨p, hp, rfl⟩
  rw [mapGet]
  cases hf : m.find? (fun q => decide (q.1 = p.1)) with
  | none =>
    rw [List.find?_eq_none] at hf
    exact absurd (by simp) (hf p hp)
  | some q => exact ⟨q.2, rfl⟩

theorem mapSet_keys {α : Type} {m : List (Str × α)} {k : Str} (v : α)
    (h : mapHas m k = true) : (mapSet m k v).map Prod.fst = m.map Prod.fst := by
  rw [mapSet, if_pos h, List.map_map]
  apply List.map_congr_left
  intro p _
  by_cases hp : p.1 = k
  · simp [hp]
  · simp [hp]

/-- First entity of the C10 counterexample state (type "A"). -/
def c10E1 : Entity :=
  { id := str "entity_1", name := str "x", typ := str "A", description := [],
    aliases := [], confidence := some (mkRat 9 10), sources := [], props := [] }

/-- Second entity of the C10 counterexample state (type "B"). -/
def c10E2 : Entity :=
  { id := str "entity_2", name := str "y", typ := str "B", description := [],
    aliases := [], confidence := some (mkRat 9 10), sources := [], props := [] }

/-- Resolver holding the two entities, indexed in order. -/
def c10State : Resolver :=
  { canonicalEntities := [(str "entity_1", c10E1), (str "entity_2", c10E2)],
    entityIndex := [(str "x", str "entity_1"), (str "y", str "entity_2")],
    aliasMap := [], nextId := 3 }

/-- Candidate whose name is only punctuation and whose type matches the
second entity, not the first. -/
def c10Cand : Candidate :=
  { name := str "???", typ := str "B", description := [], aliases := [],
    confidence := none, sources := [], props := [] }

/-- Claim C10, counterexample: a candidate with empty normalized name is
not always merged into the first entity in index iteration order - the
type filter is still applied to the substring matches.  Here the first
indexed entity is `entity_1`, but the candidate of type "B" merges into
`entity_2`. -/
theorem C10_counterexample :
    normalizeString c10Cand.name = [] ∧
    (c10State.entityIndex.map Prod.snd).head? = some (str "entity_1") ∧
    (addEntity c10State c10Cand).map (fun r => r.2.id) = some (str "entity_2") := by
  decide

/-- Claim C10, amended: in a well-formed resolver state with a non-empty
name index, a candidate whose name normalizes to the empty string never
creates a new canonical entity - the empty search term matches every
indexed name, so the candidate merges into an existing entity and the
store's id set is unchanged; with no type filter (and `""` not itself an
index key) the merge target is exactly the first entity in index
iteration order, while a type filter can select a later, type-matching
entity instead. -/
theorem C10_amended (R : Resolver) (c : Candidate)
    (hkey : normalizeString c.name = [])
    (hidx : R.entityIndex ≠ [])
    (hw3 : ∀ p ∈ R.entityIndex, p.2 ∈ R.canonicalEntities.map Prod.fst)
    (hw4 : ∀ p ∈ R.aliasMap, p.2 ∈ R.canonicalEntities.map Prod.fst)
    (hw2 : ∀ p ∈ R.canonicalEntities, p.2.id = p.1)
    (hne : ∀ p ∈ R.entityIndex, p.2 ≠ []) :
    ∃ R' e, addEntity R c = some (R', e) ∧
      e.id ∈ R.canonicalEntities.map Prod.fst ∧
      R'.canonicalEntities.map Prod.fst = R.canonicalEntities.map Prod.fst ∧
      (c.typ = [] → mapGet R.entityIndex [] = none →
        some e.id = (R.entityIndex.map Prod.snd).head?) := by
  have hmsne : findSubstringMatches R [] ≠ [] := by
    rcases findSubstringMatches_emptyKey R with ⟨extra, he⟩
    rw [he]
    cases hx : R.entityIndex with
    | nil => exact absurd hx hidx
    | cons p rest => simp
  have hsel : ∃ eid, jsOrOptStr (mapGet R.entityIndex [])
      (findBestMatch R [] c.typ) = some eid ∧
      eid ∈ R.canonicalEntities.map Prod.fst ∧
      (c.typ = [] → mapGet R.entityIndex [] = none →
        some eid = (R.entityIndex.map Prod.snd).head?) := by
    cases hget0 : mapGet R.entityIndex [] with
    | some i =>
      refine ⟨i, ?_, hw3 _ (mapGet_mem hget0), ?_⟩
      · rw [jsOrOptStr_some, if_neg (hne _ (mapGet_mem hget0))]
      · intro _ hno
        exact absurd hno (Option.some_ne_none i)
    | none =>
      rw [jsOrOptStr_none, findBestMatch, if_neg hmsne]
      rcases chooseSubstringMatch_mem R.canonicalEntities
        (findSubstringMatches R []) c.typ hmsne with ⟨m, hm, he⟩
      refine ⟨m, he, ?_, ?_⟩
      · rcases findSubstringMatches_sources hm with h' | h'
        · rcases List.mem_map.1 h' with ⟨p, hp, rfl⟩
          exact hw3 p hp
        · rcases List.mem_map.1 h' with ⟨p, hp, rfl⟩
          exact hw4 p hp
      · intro hty _
        rw [hty] at he
        rw [chooseSubstringMatch, if_neg (fun h => h rfl)] at he
        rcases findSubstringMatches_emptyKey R with ⟨extra, hex⟩
        rw [hex] at he
        cases hx : R.entityIndex with
        | nil => exact absurd hx hidx
        | cons p rest =>
          rw [hx] at he
          simp only [List.map_cons, List.cons_append, List.head?_cons] at he ⊢
          exact he.symm
  rcases hsel with ⟨eid, hsel, hmem, hhead⟩
  rcases mapGet_some_of_key_mem hmem with ⟨ex, hget⟩
  have hexid : ex.id = eid := hw2 _ (mapGet_mem hget)
  have haddeq : addEntity R c =
      some ({ R with
        canonicalEntities := mapSet R.canonicalEntities eid (mergeEntity ex c),
        aliasMap := registerAliasesIfAbsent R.aliasMap c.aliases eid },
        mergeEntity ex c) := by
    rw [addEntity_eq_merge (by rw [hkey]; exact hsel), addEntityMergeArm_eq hget]
  refine ⟨_, _, haddeq, ?_, ?_, ?_⟩
  · show (mergeEntity ex c).id ∈ _
    have : (mergeEntity ex c).id = ex.id := rfl
    rw [this, hexid]
    exact hmem
  · show (mapSet R.canonicalEntities eid (mergeEntity ex c)).map Prod.fst = _
    exact mapSet_keys _ (mapHas_of_key_mem hmem)
  · intro h1 h2
    have : (mergeEntity ex c).id = eid := by
      show ex.id = eid
      exact hexid
    rw [this]
    exact hhead h1 h2

/-- Witness for C10_amended: its hypotheses hold at the concrete two-entity
state with a punctuation-only candidate carrying no type. -/
theorem C10_amended_witness :
    ∃ R' e, addEntity c10State
        { name := str "???", typ := [], description := [], aliases := [],
          confidence := none, sources := [], props := [] } = some (R', e) ∧
      e.id ∈ c10State.canonicalEntities.map Prod.fst ∧
      R'.canonicalEntities.map Prod.fst = c10State.canonicalEntities.map Prod.fst ∧
      (({ name := str "???", typ := [], description := [], aliases := [],
          confidence := none, sources := [], props := [] } : Candidate).typ = [] →
        mapGet c10State.entityIndex [] = none →
        some e.id = (c10State.entityIndex.map Prod.snd).head?) :=
  C10_amended c10State
    { name := str "???", typ := [], description := [], aliases := [],
      confidence := none, sources := [], props := [] }
    (by decide) (by decide) (by decide) (by decide) (by decide) (by decide)

/-! ## Idempotence of `addEntity` (claim C4) -/

theorem mergeEntity_id (ex : Entity) (c : Candidate) :
    (mergeEntity ex c).id = ex.id := rfl

theorem mergeEntity_name (ex : Entity) (c : Candidate) :
    (mergeEntity ex c).name = ex.name := rfl

theorem mergeEntity_typ (ex : Entity) (c : Candidate) :
    (mergeEntity ex c).typ = ex.typ := rfl

theorem mergeEntity_aliases_mem (ex : Entity) (c : Candidate) (a : Str) :
    a ∈ (mergeEntity ex c).aliases ↔ a ∈ ex.aliases ∨ a ∈ c.aliases := by
  show a ∈ dedupKeepFirst [] (ex.aliases ++ c.aliases) ↔ _
  rw [mem_dedupKeepFirst]
  simp

theorem regAliases_structure (i : Str) :
    ∀ (as : List Str) (m : List (Str × Str)),
      ∃ extra, registerAliasesIfAbsent m as i = m ++ extra ∧
        ∀ p ∈ extra, p.2 = i := by
  intro as
  induction as with
  | nil => intro m; exact ⟨[], by simp [registerAliasesIfAbsent], by simp⟩
  | cons a rest ih =>
    intro m
    rw [registerAliasesIfAbsent, List.foldl_cons]
    by_cases hh : mapHas m (normalizeString a) = true
    · rw [if_pos hh]
      exact ih m
    · rw [if_neg hh]
      rcases ih (m ++ [(normalizeString a, i)]) with ⟨extra, he, hmem⟩
      refine ⟨(normalizeString a, i) :: extra, ?_, ?_⟩
      · rw [registerAliasesIfAbsent] at he
        rw [he, List.append_assoc]
        rfl
      · intro p hp
        rcases List.mem_cons.1 hp with rfl | hp'
        · rfl
        · exact hmem p hp'

theorem foldPushUnique_allSame (terms : List Str) (eid : Str) :
    ∀ (l : List (Str × Str)), (∀ p ∈ l, p.2 = eid) →
      ∀ (acc : List Str),
        l.foldl (fun acc p =>
          if substringHit terms p.1 then pushUnique acc p.2 else acc) acc = acc ∨
        (l.foldl (fun acc p =>
          if substringHit terms p.1 then pushUnique acc p.2 else acc) acc =
            acc ++ [eid] ∧ eid ∉ acc) := by
  intro l
  induction l with
  | nil => intro _ acc; exact Or.inl rfl
  | cons p rest ih =>
    intro hall acc
    have hp2 : p.2 = eid := hall p (List.mem_cons_self p rest)
    have hrest : ∀ q ∈ rest, q.2 = eid := fun q hq => hall q (List.mem_cons_of_mem _ hq)
    rw [List.foldl_cons]
    by_cases hhit : substringHit terms p.1 = true
    · rw [if_pos hhit, pushUnique, hp2]
      by_cases hin : eid ∈ acc
      · rw [if_pos hin]
        exact ih hrest acc
      · rw [if_neg hin]
        rcases ih hrest (acc ++ [eid]) with he | ⟨he, hnotin⟩
        · exact Or.inr ⟨he, hin⟩
        · exact absurd (List.mem_append.2 (Or.inr (List.mem_singleton.2 rfl))) hnotin
    · rw [if_neg hhit]
      exact ih hrest acc

theorem chooseSubstringMatch_result_mem {ents : List (Str × Entity)} {ms : List Str}
    {typ x : Str} (h : chooseSubstringMatch ents ms typ = some x) : x ∈ ms := by
  rw [chooseSubstringMatch] at h
  by_cases ht : typ ≠ []
  · rw [if_pos ht] at h
    cases hf : ms.filter (fun i =>
      match mapGet ents i with
      | some e => decide (e.typ = typ)
      | none => false) with
    | cons t0 rest =>
      rw [hf] at h
      injection h with h'
      exact h' ▸ List.mem_of_mem_filter (hf ▸ List.mem_cons_self t0 rest)
    | nil =>
      rw [hf] at h
      have h' : ms.head? = some x := h
      exact List.mem_of_mem_head? h'
  · rw [if_neg ht] at h
    have h' : ms.head? = some x := h
    exact List.mem_of_mem_head? h' 

theorem mapGet_decompose {α : Type} :
    ∀ {m : List (Str × α)} {k : Str} {v : α},
      mapGet m k = some v → (m.map Prod.fst).Nodup →
      ∃ pre post, m = pre ++ (k, v) :: post ∧
        k ∉ pre.map Prod.fst ∧ k ∉ post.map Prod.fst := by
  intro m
  induction m with
  | nil => intro k v h _; exact absurd h (by simp [mapGet])
  | cons q rest ih =>
    intro k v h hnd
    rw [List.map_cons, List.nodup_cons] at hnd
    rw [mapGet_cons] at h
    by_cases hq : q.1 = k
    · rw [if_pos hq] at h
      injection h with h'
      refine ⟨[], rest, ?_, by simp, ?_⟩
      · have : q = (k, v) := by
          cases q
          simp only at hq h'
          rw [hq, h']
        rw [this]
        rfl
      · rw [← hq]
        exact hnd.1
    · rw [if_neg hq] at h
      rcases ih h hnd.2 with ⟨pre, post, he, hpre, hpost⟩
      refine ⟨q :: pre, post, by rw [List.cons_append, he], ?_, hpost⟩
      rw [List.map_cons]
      intro hk
      rcases List.mem_cons.1 hk with hk' | hk'
      · exact hq hk'.symm
      · exact hpre hk'

theorem mapSet_decomposed {α : Type} {pre post : List (Str × α)} {k : Str}
    {v : α} (w : α) (hpre : k ∉ pre.map Prod.fst) (hpost : k ∉ post.map Prod.fst) :
    mapSet (pre ++ (k, v) :: post) k w = pre ++ (k, w) :: post := by
  have hhas : mapHas (pre ++ (k, v) :: post) k = true := by
    rw [mapHas, List.any_eq_true]
    exact ⟨(k, v), List.mem_append.2 (Or.inr (List.mem_cons_self _ _)), by simp⟩
  rw [mapSet, if_pos hhas, List.map_append, List.map_cons]
  have hpre' : pre.map (fun p => if p.1 = k then (k, w) else p) = pre := by
    have hfix : ∀ p ∈ pre, (if p.1 = k then (k, w) else p) = p := by
      intro p hp
      rw [if_neg]
      intro he
      exact hpre (List.mem_map.2 ⟨p, hp, he⟩)
    calc pre.map _ = pre.map id := List.map_congr_left hfix
    _ = pre := List.map_id pre
  have hpost' : post.map (fun p => if p.1 = k then (k, w) else p) = post := by
    have hfix : ∀ p ∈ post, (if p.1 = k then (k, w) else p) = p := by
      intro p hp
      rw [if_neg]
      intro he
      exact hpost (List.mem_map.2 ⟨p, hp, he⟩)
    calc post.map _ = post.map id := List.map_congr_left hfix
    _ = post := List.map_id post
  rw [hpre', hpost']
  have hmid : (if ((k, v) : Str × α).1 = k then (k, w) else (k, v)) = (k, w) :=
    if_pos rfl
  rw [hmid]

theorem mapGet_of_pair_mem {α : Type} {m : List (Str × α)} {k : Str} {v : α}
    (hnd : (m.map Prod.fst).Nodup) (h : (k, v) ∈ m) : mapGet m k = some v := by
  induction m with
  | nil => exact absurd h (List.not_mem_nil _)
  | cons q rest ih =>
    rw [List.map_cons, List.nodup_cons] at hnd
    rw [mapGet_cons]
    rcases List.mem_cons.1 h with rfl | h'
    · rw [if_pos rfl]
    · by_cases hq : q.1 = k
      · exfalso
        apply hnd.1
        rw [hq]
        exact List.mem_map.2 ⟨(k, v), h', rfl⟩
      · rw [if_neg hq]
        exact ih hnd.2 h'

theorem scoreFold_id (i : Str) (thr : ℚ) :
    ∀ (scores : List ℚ) (st : FuzzyState),
      scores.foldl (scoreUpdate i thr) st = st ∨
        (scores.foldl (scoreUpdate i thr) st).bestId = some i := by
  intro scores
  induction scores with
  | nil => intro st; exact Or.inl rfl
  | cons s0 rest ih =>
    intro st
    rw [List.foldl_cons]
    by_cases hc : s0 > st.bestScore ∧ s0 > thr
    · rw [scoreUpdate, if_pos hc]
      rcases ih ⟨s0, some i⟩ with he | hid
      · rw [he]
        exact Or.inr rfl
      · exact Or.inr hid
    · rw [scoreUpdate, if_neg hc]
      exact ih st

theorem scoreFold_keepId (i : Str) (thr : ℚ) :
    ∀ (scores : List ℚ) (st : FuzzyState), st.bestId = some i →
      (scores.foldl (scoreUpdate i thr) st).bestId = some i := by
  intro scores
  induction scores with
  | nil => intro st h; exact h
  | cons s0 rest ih =>
    intro st h
    rw [List.foldl_cons]
    by_cases hc : s0 > st.bestScore ∧ s0 > thr
    · rw [scoreUpdate, if_pos hc]
      exact ih _ rfl
    · rw [scoreUpdate, if_neg hc]
      exact ih st h

theorem scoreFold_fires (i : Str) (thr : ℚ) :
    ∀ (scores : List ℚ) (st : FuzzyState) (s : ℚ),
      s ∈ scores → s > thr → s > st.bestScore →
      (scores.foldl (scoreUpdate i thr) st).bestId = some i ∧
        s ≤ (scores.foldl (scoreUpdate i thr) st).bestScore := by
  intro scores
  induction scores with
  | nil => intro st s hs; exact absurd hs (List.not_mem_nil s)
  | cons s0 rest ih =>
    intro st s hs hthr hgt
    rw [List.foldl_cons]
    rcases List.mem_cons.1 hs with rfl | hs'
    · have hc : s > st.bestScore ∧ s > thr := ⟨hgt, hthr⟩
      rw [scoreUpdate, if_pos hc]
      exact ⟨scoreFold_keepId i thr rest _ rfl,
        le_trans (le_refl s) (scoreFold_mono i thr rest ⟨s, some i⟩)⟩
    · by_cases hc : s0 > st.bestScore ∧ s0 > thr
      · rw [scoreUpdate, if_pos hc]
        by_cases hs0 : s > s0
        · exact ih ⟨s0, some i⟩ s hs' hthr hs0
        · refine ⟨scoreFold_keepId i thr rest _ rfl, ?_⟩
          have : s ≤ s0 := not_lt.1 hs0
          exact le_trans this (scoreFold_mono i thr rest ⟨s0, some i⟩)
      · rw [scoreUpdate, if_neg hc]
        exact ih st s hs' hthr hgt

theorem scoreFold_noop_up (i : Str) (thr : ℚ) :
    ∀ (scores : List ℚ) (st st' : FuzzyState),
      scores.foldl (scoreUpdate i thr) st = st →
      st.bestScore ≤ st'.bestScore →
      scores.foldl (scoreUpdate i thr) st' = st' := by
  intro scores
  induction scores with
  | nil => intro st st' _ _; rfl
  | cons s0 rest ih =>
    intro st st' hnoop hle
    rw [List.foldl_cons] at hnoop ⊢
    by_cases hc : s0 > st.bestScore ∧ s0 > thr
    · exfalso
      rw [scoreUpdate, if_pos hc] at hnoop
      have hmono := scoreFold_mono i thr rest (⟨s0, some i⟩ : FuzzyState)
      rw [hnoop] at hmono
      exact absurd (lt_of_lt_of_le hc.1 hmono) (lt_irrefl _)
    · rw [scoreUpdate, if_neg hc] at hnoop
      have hc' : ¬(s0 > st'.bestScore ∧ s0 > thr) := by
        intro ⟨h1, h2⟩
        exact hc ⟨lt_of_le_of_lt hle h1, h2⟩
      rw [scoreUpdate, if_neg hc']
      exact ih st st' hnoop hle

theorem scoreFold_stuck (i : Str) (thr : ℚ) :
    ∀ (scores : List ℚ) (st : FuzzyState),
      (scores.foldl (scoreUpdate i thr) st).bestScore = st.bestScore →
      scores.foldl (scoreUpdate i thr) st = st := by
  intro scores
  induction scores with
  | nil => intro st _; rfl
  | cons s0 rest ih =>
    intro st hsc
    rw [List.foldl_cons] at hsc ⊢
    by_cases hc : s0 > st.bestScore ∧ s0 > thr
    · exfalso
      rw [scoreUpdate, if_pos hc] at hsc
      have hmono := scoreFold_mono i thr rest (⟨s0, some i⟩ : FuzzyState)
      rw [hsc] at hmono
      exact absurd (lt_of_lt_of_le hc.1 hmono) (lt_irrefl _)
    · rw [scoreUpdate, if_neg hc] at hsc ⊢
      exact ih st hsc

theorem fuzzyFold_id (key typ : Str) :
    ∀ (l : List (Str × Entity)) (st : FuzzyState),
      l.foldl (fun st p =>
        if typ ≠ [] ∧ p.2.typ ≠ typ then st else fuzzyStepEntity key st p.1 p.2) st = st ∨
      ∃ q ∈ l.map Prod.fst,
        (l.foldl (fun st p =>
          if typ ≠ [] ∧ p.2.typ ≠ typ then st else fuzzyStepEntity key st p.1 p.2)
          st).bestId = some q := by
  intro l
  induction l with
  | nil => intro st; exact Or.inl rfl
  | cons p rest ih =>
    intro st
    rw [List.foldl_cons]
    by_cases hc : typ ≠ [] ∧ p.2.typ ≠ typ
    · rw [if_pos hc]
      rcases ih st with he | ⟨q, hq, hid⟩
      · exact Or.inl he
      · exact Or.inr ⟨q, List.mem_cons_of_mem _ hq, hid⟩
    · rw [if_neg hc]
      rcases scoreFold_id p.1 (minThresholdFor (normalizeString p.2.name))
          (comparisonScores key p.2) st with he | hid
      · rw [fuzzyStepEntity, he]
        rcases ih st with he' | ⟨q, hq, hid'⟩
        · exact Or.inl he'
        · exact Or.inr ⟨q, List.mem_cons_of_mem _ hq, hid'⟩
      · rcases ih (fuzzyStepEntity key st p.1 p.2) with he' | ⟨q, hq, hid'⟩
        · rw [he']
          exact Or.inr ⟨p.1, List.mem_map.2 ⟨p, List.mem_cons_self p rest, rfl⟩, hid⟩
        · exact Or.inr ⟨q, List.mem_cons_of_mem _ hq, hid'⟩

theorem fuzzyFold_noop_up (key typ : Str) :
    ∀ (l : List (Str × Entity)) (st st' : FuzzyState),
      l.foldl (fun st p =>
        if typ ≠ [] ∧ p.2.typ ≠ typ then st else fuzzyStepEntity key st p.1 p.2) st = st →
      st.bestScore ≤ st'.bestScore →
      l.foldl (fun st p =>
        if typ ≠ [] ∧ p.2.typ ≠ typ then st else fuzzyStepEntity key st p.1 p.2) st' = st' := by
  intro l
  induction l with
  | nil => intro st st' _ _; rfl
  | cons p rest ih =>
    intro st st' hnoop hle
    rw [List.foldl_cons] at hnoop ⊢
    by_cases hc : typ ≠ [] ∧ p.2.typ ≠ typ
    · rw [if_pos hc] at hnoop ⊢
      exact ih st st' hnoop hle
    · rw [if_neg hc] at hnoop ⊢
      have hstep : fuzzyStepEntity key st p.1 p.2 = st := by
        rcases scoreFold_id p.1 (minThresholdFor (normalizeString p.2.name))
            (comparisonScores key p.2) st with he | hid
        · exact he
        · by_cases heq : fuzzyStepEntity key st p.1 p.2 = st
          · exact heq
          · exfalso
            have hmono := fuzzyFold_mono key typ rest (fuzzyStepEntity key st p.1 p.2)
            rw [hnoop] at hmono
            have hmono2 := scoreFold_mono p.1
              (minThresholdFor (normalizeString p.2.name)) (comparisonScores key p.2) st
            have hsame : (fuzzyStepEntity key st p.1 p.2).bestScore = st.bestScore :=
              le_antisymm hmono hmono2
            -- the step did not raise the score, so no update fired and the
            -- state is unchanged; derive this from the fold over scores
            have := scoreFold_stuck p.1 (minThresholdFor (normalizeString p.2.name))
              (comparisonScores key p.2) st hsame
            exact heq this
      rw [hstep] at hnoop
      have hstep' : fuzzyStepEntity key st' p.1 p.2 = st' := by
        rw [fuzzyStepEntity] at hstep ⊢
        exact scoreFold_noop_up _ _ _ _ _ hstep hle
      rw [hstep']
      exact ih st st' hnoop hle

theorem comparisonScores_mono (key : Str) (ex : Entity) (c : Candidate) :
    ∀ x ∈ comparisonScores key ex, x ∈ comparisonScores key (mergeEntity ex c) := by
  intro x hx
  rcases List.mem_cons.1 hx with rfl | hx'
  · exact List.mem_cons_self _ _
  · rcases List.mem_map.1 hx' with ⟨a, ha, rfl⟩
    refine List.mem_cons_of_mem _ (List.mem_map.2 ⟨a, ?_, rfl⟩)
    rw [mergeEntity_aliases_mem]
    exact Or.inl ha

theorem fuzzyLoop_stable (key typ : Str) (c : Candidate)
    {pre post : List (Str × Entity)} {eid : Str} {ex : Entity}
    (hpre : eid ∉ pre.map Prod.fst) (hpost : eid ∉ post.map Prod.fst)
    (hwin : fuzzyLoop (pre ++ (eid, ex) :: post) key typ = some eid) :
    fuzzyLoop (pre ++ (eid, mergeEntity ex c) :: post) key typ = some eid := by
  have hstep : ∀ (e : Entity) (st : FuzzyState),
      (if typ ≠ [] ∧ (eid, e).2.typ ≠ typ then st
        else fuzzyStepEntity key st (eid, e).1 (eid, e).2) =
      if typ ≠ [] ∧ e.typ ≠ typ then st else
        (comparisonScores key e).foldl
          (scoreUpdate eid (minThresholdFor (normalizeString e.name))) st :=
    fun e st => rfl
  rw [fuzzyLoop, List.foldl_append, List.foldl_cons] at hwin
  rw [fuzzyLoop, List.foldl_append, List.foldl_cons]
  rw [hstep] at hwin
  rw [hstep]
  rw [mergeEntity_typ ex c, mergeEntity_name ex c]
  set st0 := pre.foldl (fun (st : FuzzyState) (p : Str × Entity) =>
    if typ ≠ [] ∧ p.2.typ ≠ typ then st else fuzzyStepEntity key st p.1 p.2)
    (⟨mkRat 65 100, none⟩ : FuzzyState) with hst0
  have hst0_ne : st0.bestId ≠ some eid := by
    rcases fuzzyFold_id key typ pre (⟨mkRat 65 100, none⟩ : FuzzyState) with
      he | ⟨q, hq, hid⟩
    · rw [← hst0] at he
      rw [he]
      exact fun h => Option.noConfusion h
    · rw [← hst0] at hid
      intro h
      rw [h] at hid
      injection hid with h1
      subst h1
      exact hpre hq
  by_cases hskip : typ ≠ [] ∧ ex.typ ≠ typ
  · rw [if_pos hskip] at hwin
    rw [if_pos hskip]
    exact hwin
  · rw [if_neg hskip] at hwin
    rw [if_neg hskip]
    have hposttail : post.foldl (fun (st : FuzzyState) (p : Str × Entity) =>
        if typ ≠ [] ∧ p.2.typ ≠ typ then st else fuzzyStepEntity key st p.1 p.2)
        ((comparisonScores key ex).foldl
          (scoreUpdate eid (minThresholdFor (normalizeString ex.name))) st0) =
        (comparisonScores key ex).foldl
          (scoreUpdate eid (minThresholdFor (normalizeString ex.name))) st0 := by
      rcases fuzzyFold_id key typ post ((comparisonScores key ex).foldl
          (scoreUpdate eid (minThresholdFor (normalizeString ex.name))) st0) with
        he | ⟨q, hq, hid⟩
      · exact he
      · exfalso
        rw [hwin] at hid
        injection hid with h1
        subst h1
        exact hpost hq
    rw [hposttail] at hwin
    rcases scoreFold_sound eid (minThresholdFor (normalizeString ex.name))
        (comparisonScores key ex) st0 eid hwin with heq | ⟨-, s, hs, hval, hthr, hgt⟩
    · exfalso
      rw [heq] at hwin
      exact hst0_ne hwin
    · have hs' : s ∈ comparisonScores key (mergeEntity ex c) :=
        comparisonScores_mono key ex c s hs
      have hfires := scoreFold_fires eid (minThresholdFor (normalizeString ex.name))
        (comparisonScores key (mergeEntity ex c)) st0 s hs' hthr hgt
      have hles : ((comparisonScores key ex).foldl
          (scoreUpdate eid (minThresholdFor (normalizeString ex.name))) st0).bestScore ≤
          ((comparisonScores key (mergeEntity ex c)).foldl
            (scoreUpdate eid (minThresholdFor (normalizeString ex.name))) st0).bestScore := by
        rw [← hval]
        exact hfires.2
      have hnoop2 := fuzzyFold_noop_up key typ post _ _ hposttail hles
      rw [hnoop2]
      exact hfires.1

theorem chooseSubstringMatch_congr {ents : List (Str × Entity)} {eid : Str}
    {ex : Entity} (c : Candidate) (hget : mapGet ents eid = some ex)
    (ms : List Str) (typ : Str) :
    chooseSubstringMatch (mapSet ents eid (mergeEntity ex c)) ms typ =
      chooseSubstringMatch ents ms typ := by
  have hfil : ∀ i, (match mapGet (mapSet ents eid (mergeEntity ex c)) i with
      | some e => decide (e.typ = typ)
      | none => false) =
      (match mapGet ents i with
      | some e => decide (e.typ = typ)
      | none => false) := by
    intro i
    by_cases hi : i = eid
    · subst hi
      rw [mapGet_mapSet_self, hget]
      rfl
    · rw [mapGet_mapSet_ne _ _ hi]
  rw [chooseSubstringMatch, chooseSubstringMatch]
  rw [List.filter_congr (fun i _ => hfil i)]

theorem findSubstringMatches_ext (R R1 : Resolver) (key eid : Str)
    (extra : List (Str × Str))
    (hidx1 : R1.entityIndex = R.entityIndex)
    (hal1 : R1.aliasMap = R.aliasMap ++ extra)
    (hall : ∀ p ∈ extra, p.2 = eid) :
    findSubstringMatches R1 key = findSubstringMatches R key ∨
    (findSubstringMatches R1 key = findSubstringMatches R key ++ [eid] ∧
      eid ∉ findSubstringMatches R key) := by
  have h1 : findSubstringMatches R1 key =
      extra.foldl (fun acc p =>
        if substringHit (searchTerms key) p.1 then pushUnique acc p.2 else acc)
        (findSubstringMatches R key) := by
    rw [findSubstringMatches, findSubstringMatches, hidx1, hal1]
    exact List.foldl_append _ _ _ _
  rw [h1]
  exact foldPushUnique_allSame (searchTerms key) eid extra hall
    (findSubstringMatches R key)

theorem findBestMatch_stable (R R1 : Resolver) (c : Candidate) (key typ eid : Str)
    (ex : Entity)
    (hnodup : (R.canonicalEntities.map Prod.fst).Nodup)
    (hget : mapGet R.canonicalEntities eid = some ex)
    (hcan1 : R1.canonicalEntities = mapSet R.canonicalEntities eid (mergeEntity ex c))
    (hidx1 : R1.entityIndex = R.entityIndex)
    (hal1 : R1.aliasMap = registerAliasesIfAbsent R.aliasMap c.aliases eid)
    (hwin : findBestMatch R key typ = some eid) :
    findBestMatch R1 key typ = some eid := by
  rcases regAliases_structure eid c.aliases R.aliasMap with ⟨extra, he, hall⟩
  have hsplit := findSubstringMatches_ext R R1 key eid extra hidx1
    (by rw [hal1, he]) hall
  rw [findBestMatch] at hwin
  rw [findBestMatch]
  by_cases hms : findSubstringMatches R key = []
  · rw [if_pos hms] at hwin
    rcases mapGet_decompose hget hnodup with ⟨pre, post, hcanEq, hpre, hpost⟩
    rw [hms] at hsplit
    rcases hsplit with h1 | ⟨h1, -⟩
    · rw [if_pos h1]
      rw [hcan1, hcanEq, mapSet_decomposed (mergeEntity ex c) hpre hpost]
      rw [hcanEq] at hwin
      exact fuzzyLoop_stable key typ c hpre hpost hwin
    · have h1' : findSubstringMatches R1 key = [eid] := by rw [h1]; rfl
      rw [if_neg (by rw [h1']; exact fun hh => List.noConfusion hh)]
      rw [h1', hcan1]
      rcases chooseSubstringMatch_mem (mapSet R.canonicalEntities eid (mergeEntity ex c))
        [eid] typ (List.cons_ne_nil eid []) with ⟨m, hm, hres⟩
      rw [List.mem_singleton] at hm
      subst hm
      exact hres
  · rw [if_neg hms] at hwin
    have heidms : eid ∈ findSubstringMatches R key := chooseSubstringMatch_result_mem hwin
    have hfsm : findSubstringMatches R1 key = findSubstringMatches R key := by
      rcases hsplit with h1 | ⟨-, hnotin⟩
      · exact h1
      · exact absurd heidms hnotin
    rw [if_neg (by rw [hfsm]; exact hms)]
    rw [hfsm, hcan1, chooseSubstringMatch_congr c hget]
    exact hwin

theorem mkFreshId_ne_nil (n : Nat) : mkFreshId n ≠ [] := by
  rw [mkFreshId]
  intro hh
  exact absurd (List.append_eq_nil.1 hh).1 (by decide)

/-- C4: `addEntity` (src/unnamed/part_002, lines 33–99) is idempotent: on
any resolver state whose canonical-entity keys are distinct and whose name
index and alias map only point at stored canonical ids, adding the same
candidate twice succeeds both times, the two calls return entities with
the same canonical id, and the second call leaves the returned entity's
alias set equal to the alias set after the first call. -/
theorem C4_addEntity_idempotent (R : Resolver) (c : Candidate)
    (hnodup : (R.canonicalEntities.map Prod.fst).Nodup)
    (hidxcl : ∀ p ∈ R.entityIndex, p.2 ∈ R.canonicalEntities.map Prod.fst)
    (halcl : ∀ p ∈ R.aliasMap, p.2 ∈ R.canonicalEntities.map Prod.fst) :
    ∃ R1 e1 R2 e2, addEntity R c = some (R1, e1) ∧
      addEntity R1 c = some (R2, e2) ∧ e2.id = e1.id ∧
      ∀ a, a ∈ e2.aliases ↔ a ∈ e1.aliases := by
  cases hsel : jsOrOptStr (mapGet R.entityIndex (normalizeString c.name))
      (findBestMatch R (normalizeString c.name) c.typ) with
  | none =>
    have h1 : addEntity R c = some (addEntityCreateArm R c) := addEntity_eq_create hsel
    have hidx2 : mapGet (addEntityCreateArm R c).1.entityIndex (normalizeString c.name) =
        some (mkFreshId R.nextId) :=
      mapGet_mapSet_self R.entityIndex (normalizeString c.name) (mkFreshId R.nextId)
    have hsel2 : jsOrOptStr
        (mapGet (addEntityCreateArm R c).1.entityIndex (normalizeString c.name))
        (findBestMatch (addEntityCreateArm R c).1 (normalizeString c.name) c.typ) =
        some (mkFreshId R.nextId) := by
      rw [hidx2, jsOrOptStr_some, if_neg (mkFreshId_ne_nil R.nextId)]
    have hget2 : mapGet (addEntityCreateArm R c).1.canonicalEntities (mkFreshId R.nextId) =
        some (addEntityCreateArm R c).2 :=
      mapGet_mapSet_self R.canonicalEntities (mkFreshId R.nextId) (addEntityCreateArm R c).2
    have h2 := addEntity_eq_merge hsel2
    rw [addEntityMergeArm_eq hget2] at h2
    refine ⟨_, _, _, _, h1, h2, rfl, ?_⟩
    intro a
    rw [mergeEntity_aliases_mem]
    constructor
    · rintro (h | h)
      · exact h
      · exact h
    · exact fun h => Or.inl h
  | some eid =>
    have hcases : (mapGet R.entityIndex (normalizeString c.name) = some eid ∧ eid ≠ []) ∨
        ((mapGet R.entityIndex (normalizeString c.name) = none ∨
          mapGet R.entityIndex (normalizeString c.name) = some []) ∧
          findBestMatch R (normalizeString c.name) c.typ = some eid) := by
      cases ha : mapGet R.entityIndex (normalizeString c.name) with
      | none =>
        rw [ha, jsOrOptStr_none] at hsel
        exact Or.inr ⟨Or.inl rfl, hsel⟩
      | some s =>
        rw [ha, jsOrOptStr_some] at hsel
        by_cases hs : s = []
        · rw [if_pos hs] at hsel
          subst hs
          exact Or.inr ⟨Or.inr rfl, hsel⟩
        · rw [if_neg hs] at hsel
          injection hsel with hs2
          subst hs2
          exact Or.inl ⟨rfl, hs⟩
    have heidmem : eid ∈ R.canonicalEntities.map Prod.fst := by
      rcases hcases with ⟨ha, -⟩ | ⟨-, hcb⟩
      · exact hidxcl (normalizeString c.name, eid) (mapGet_mem ha)
      · rw [findBestMatch] at hcb
        by_cases hms : findSubstringMatches R (normalizeString c.name) = []
        · rw [if_pos hms] at hcb
          have hb : (R.canonicalEntities.foldl (fun st p =>
              if c.typ ≠ [] ∧ p.2.typ ≠ c.typ then st
              else fuzzyStepEntity (normalizeString c.name) st p.1 p.2)
              (⟨mkRat 65 100, none⟩ : FuzzyState)).bestId = some eid := hcb
          rcases fuzzyFold_sound (normalizeString c.name) c.typ R.canonicalEntities
              ⟨mkRat 65 100, none⟩ eid hb with h0 | ⟨e, hmem, -, -⟩
          · exact Option.noConfusion h0
          · exact List.mem_map.2 ⟨(eid, e), hmem, rfl⟩
        · rw [if_neg hms] at hcb
          rcases findSubstringMatches_sources (chooseSubstringMatch_result_mem hcb) with
            hv | hv
          · rcases List.mem_map.1 hv with ⟨p, hp, hpe⟩
            rw [← hpe]
            exact hidxcl p hp
          · rcases List.mem_map.1 hv with ⟨p, hp, hpe⟩
            rw [← hpe]
            exact halcl p hp
    rcases mapGet_some_of_key_mem heidmem with ⟨ex, hget⟩
    have h1 := addEntity_eq_merge hsel
    rw [addEntityMergeArm_eq hget] at h1
    have hsel2 : jsOrOptStr (mapGet ({ R with
        canonicalEntities := mapSet R.canonicalEntities eid (mergeEntity ex c),
        aliasMap := registerAliasesIfAbsent R.aliasMap c.aliases eid } : Resolver).entityIndex
        (normalizeString c.name))
        (findBestMatch { R with
          canonicalEntities := mapSet R.canonicalEntities eid (mergeEntity ex c),
          aliasMap := registerAliasesIfAbsent R.aliasMap c.aliases eid }
          (normalizeString c.name) c.typ) = some eid := by
      rcases hcases with ⟨ha, hne⟩ | ⟨hfalsy, hcb⟩
      · show jsOrOptStr (mapGet R.entityIndex (normalizeString c.name)) _ = some eid
        rw [ha, jsOrOptStr_some, if_neg hne]
      · have hstab := findBestMatch_stable R ({ R with
            canonicalEntities := mapSet R.canonicalEntities eid (mergeEntity ex c),
            aliasMap := registerAliasesIfAbsent R.aliasMap c.aliases eid })
          c (normalizeString c.name) c.typ eid ex hnodup hget rfl rfl rfl hcb
        show jsOrOptStr (mapGet R.entityIndex (normalizeString c.name))
          (findBestMatch { R with
            canonicalEntities := mapSet R.canonicalEntities eid (mergeEntity ex c),
            aliasMap := registerAliasesIfAbsent R.aliasMap c.aliases eid }
            (normalizeString c.name) c.typ) = some eid
        rcases hfalsy with hn | hn
        · rw [hn, jsOrOptStr_none]
          exact hstab
        · rw [hn, jsOrOptStr_some, if_pos rfl]
          exact hstab
    have hget2 : mapGet ({ R with
        canonicalEntities := mapSet R.canonicalEntities eid (mergeEntity ex c),
        aliasMap := registerAliasesIfAbsent R.aliasMap c.aliases eid } : Resolver).canonicalEntities
        eid = some (mergeEntity ex c) :=
      mapGet_mapSet_self R.canonicalEntities eid (mergeEntity ex c)
    have h2 := addEntity_eq_merge hsel2
    rw [addEntityMergeArm_eq hget2] at h2
    refine ⟨_, _, _, _, h1, h2, rfl, ?_⟩
    intro a
    rw [mergeEntity_aliases_mem, mergeEntity_aliases_mem]
    constructor
    · rintro ((h | h) | h)
      · exact Or.inl h
      · exact Or.inr h
      · exact Or.inr h
    · rintro (h | h)
      · exact Or.inl (Or.inl h)
      · exact Or.inr h

/-- Witness for C4: the concrete single-entity store satisfies the
well-formedness hypotheses, and adding the candidate "BP" twice returns
the same id with an unchanged alias set. -/
theorem C4_addEntity_idempotent_witness :
    ∃ R1 e1 R2 e2, addEntity dpState bpCand = some (R1, e1) ∧
      addEntity R1 bpCand = some (R2, e2) ∧ e2.id = e1.id ∧
      ∀ a, a ∈ e2.aliases ↔ a ∈ e1.aliases :=
  C4_addEntity_idempotent dpState bpCand (by decide) (by decide) (by decide)
